import Mathlib

/-!
Verification development for the Chess-Scan repository.

The repository is a React application (src/App.jsx) plus a vision service
(src/visionService.ts).  Its core logic manipulates FEN strings and maps
object detections onto an 8x8 grid.  JavaScript strings are modelled as
lists of characters; JavaScript numbers appearing in the grid mapper and
the rate limiter are modelled as rationals (for coordinates/confidences)
and integers (for millisecond timestamps).  Character range comparisons in
the source compare JavaScript strings of length one, which compare by code
unit; they are modelled through Char.toNat.
-/

namespace ChessScan

/-- A JavaScript string, modelled as its list of characters. -/
def str (s : String) : List Char := s.data

/-- JavaScript split(sep) for a single-character separator: splits a string
into the (possibly empty) pieces between occurrences of the separator.
Mirrors fen.split(' ') and boardPart.split('/') in App.jsx. -/
def splitOnChar (c : Char) : List Char → List (List Char)
  | [] => [[]]
  | x :: xs =>
    if x = c then [] :: splitOnChar c xs
    else
      match splitOnChar c xs with
      | [] => [[x]]
      | y :: ys => (x :: y) :: ys

/-- JavaScript Array.join for a single-character separator. -/
def joinWith (c : Char) : List (List Char) → List Char
  | [] => []
  | [r] => r
  | r :: s :: rest => r ++ c :: joinWith c (s :: rest)

/-! ## Data model (App.jsx)

Pieces are stored in the 8x8 board array as records with a type name and a
color letter, mirroring the objects built in the FEN-parsing loops of
App.jsx. -/

inductive PieceColor
  | w
  | b
deriving DecidableEq

inductive PieceKind
  | pawn
  | rook
  | knight
  | bishop
  | queen
  | king
deriving DecidableEq

structure Piece where
  type : PieceKind
  color : PieceColor
deriving DecidableEq

/-- The 8x8 board array of App.jsx: 8 rows (row 0 = rank 8), each a list of
8 optional pieces. -/
abbrev Board := List (List (Option Piece))

/-- The fenToPieceType lookup table of App.jsx. -/
def fenToPieceType (c : Char) : Option PieceKind :=
  if c = 'p' then some PieceKind.pawn
  else if c = 'r' then some PieceKind.rook
  else if c = 'n' then some PieceKind.knight
  else if c = 'b' then some PieceKind.bishop
  else if c = 'q' then some PieceKind.queen
  else if c = 'k' then some PieceKind.king
  else none

/-- JavaScript toLowerCase restricted to ASCII letters (the only characters
the lookup tables of the source contain). -/
def jsToLower (c : Char) : Char :=
  if 65 ≤ c.toNat ∧ c.toNat ≤ 90 then Char.ofNat (c.toNat + 32) else c

/-- JavaScript toUpperCase restricted to ASCII letters. -/
def jsToUpper (c : Char) : Char :=
  if 97 ≤ c.toNat ∧ c.toNat ≤ 122 then Char.ofNat (c.toNat - 32) else c

/-- One step of the rank-scanning loop shared by onDrop,
handleSquareRightClick and enhancedOnDrop in App.jsx: a digit 1..8 advances
the column (clamped at 8), any other character is looked up (lower-cased)
in fenToPieceType, case deciding the color; unrecognized characters are
skipped but still advance the column. -/
def parseRankGo : List Char → List (Option Piece) → Nat → List (Option Piece)
  | [], row, _ => row
  | ch :: rest, row, col =>
    if 8 ≤ col then row
    else if 49 ≤ ch.toNat ∧ ch.toNat ≤ 56 then
      let col2 := col + (ch.toNat - 48)
      parseRankGo rest row (if 8 < col2 then 8 else col2)
    else
      match fenToPieceType (jsToLower ch) with
      | some k =>
        parseRankGo rest
          (row.set col (some ⟨k, if 65 ≤ ch.toNat ∧ ch.toNat ≤ 90 then PieceColor.w else PieceColor.b⟩))
          (col + 1)
      | none => parseRankGo rest row (col + 1)

/-- Parse one FEN rank string into a row of 8 optional pieces. -/
def parseRank (r : List Char) : List (Option Piece) :=
  parseRankGo r (List.replicate 8 none) 0

/-- The pieceTypeToFEN table of App.jsx. -/
def pieceTypeToFEN : PieceKind → Char
  | PieceKind.pawn => 'p'
  | PieceKind.rook => 'r'
  | PieceKind.knight => 'n'
  | PieceKind.bishop => 'b'
  | PieceKind.queen => 'q'
  | PieceKind.king => 'k'

/-- The character emitted for a piece when rebuilding a FEN board string:
the pieceTypeToFEN letter, upper-cased for white.  The composition with
toUpperCase is tabulated so that all emitted characters are literals. -/
def pieceChar (p : Piece) : Char :=
  match p.color, p.type with
  | PieceColor.w, PieceKind.pawn => 'P'
  | PieceColor.w, PieceKind.rook => 'R'
  | PieceColor.w, PieceKind.knight => 'N'
  | PieceColor.w, PieceKind.bishop => 'B'
  | PieceColor.w, PieceKind.queen => 'Q'
  | PieceColor.w, PieceKind.king => 'K'
  | PieceColor.b, PieceKind.pawn => 'p'
  | PieceColor.b, PieceKind.rook => 'r'
  | PieceColor.b, PieceKind.knight => 'n'
  | PieceColor.b, PieceKind.bishop => 'b'
  | PieceColor.b, PieceKind.queen => 'q'
  | PieceColor.b, PieceKind.king => 'k'

/-- The decimal digit character for an empty-square run length (the
JavaScript coercion of a number 1..8 to a string; counts above 8 never
occur because every row has 8 squares). -/
def countChar (n : Nat) : Char :=
  if n = 1 then '1' else if n = 2 then '2' else if n = 3 then '3'
  else if n = 4 then '4' else if n = 5 then '5' else if n = 6 then '6'
  else if n = 7 then '7' else if n = 8 then '8' else '0'

/-- Run-length encode one board row back into a FEN rank string, mirroring
the fenBoard-building loops of App.jsx. -/
def encRank : List (Option Piece) → Nat → List Char
  | [], 0 => []
  | [], n + 1 => [countChar (n + 1)]
  | none :: rest, n => encRank rest (n + 1)
  | some p :: rest, 0 => pieceChar p :: encRank rest 0
  | some p :: rest, n + 1 => countChar (n + 1) :: pieceChar p :: encRank rest 0

/-- Encode a full board into the FEN board field (ranks joined by slashes). -/
def boardFenOf (b : Board) : List Char :=
  joinWith '/' (b.map (fun row => encRank row 0))

/-- Split a FEN string into its space-separated fields
(the fen.split(' ') of App.jsx). -/
def fenFields (fen : List Char) : List (List Char) :=
  splitOnChar ' ' fen

/-- JavaScript a || b for strings: the empty string is falsy. -/
def jsOr (a b : List Char) : List Char :=
  if a = [] then b else a

/-- Join the six FEN fields with single spaces (the template literal used
throughout App.jsx). -/
def joinSix (b t c e h f : List Char) : List Char :=
  b ++ ' ' :: (t ++ ' ' :: (c ++ ' ' :: (e ++ ' ' :: (h ++ ' ' :: f))))

/-- The DEFAULT_FEN_PARTS fallbacks of App.jsx, applied field by field when
rebuilding a FEN after a board edit. -/
def rebuildFen (b : Board) (parts : List (List Char)) : List Char :=
  joinSix (boardFenOf b)
    (jsOr (parts.getD 1 []) (str "w"))
    (jsOr (parts.getD 2 []) (str "-"))
    (jsOr (parts.getD 3 []) (str "-"))
    (jsOr (parts.getD 4 []) (str "0"))
    (jsOr (parts.getD 5 []) (str "1"))

/-- The square-notation validation shared by onDrop, handleSquareRightClick
and enhancedOnDrop: a two-character string with file a..h and rank 1..8
(JavaScript compares one-character strings by code unit). -/
def jsValidSquare : List Char → Bool
  | [f, r] => decide (97 ≤ f.toNat ∧ f.toNat ≤ 104 ∧ 49 ≤ r.toNat ∧ r.toNat ≤ 56)
  | _ => false

/-- Board row index of a square string: 8 - rank digit. -/
def squareRow (sq : List Char) : Nat := 8 - ((sq.getD 1 ' ').toNat - 48)

/-- Board column index of a square string: file letter minus 97. -/
def squareCol (sq : List Char) : Nat := (sq.getD 0 ' ').toNat - 97

/-- Read a board square (array indexing in the source; every access is in
bounds because rows/columns are validated first). -/
def getSq (b : Board) (r c : Nat) : Option Piece :=
  (b.getD r []).getD c none

/-- Write a board square. -/
def setSq (b : Board) (r c : Nat) (v : Option Piece) : Board :=
  b.set r ((b.getD r []).set c v)

/-- The FEN-parsing preamble shared verbatim by onDrop,
handleSquareRightClick and enhancedOnDrop in App.jsx: require at least 6
space-separated fields with a nonempty board field and exactly 8 ranks,
then scan the ranks into the 8x8 board array.  Returns none exactly when
the handlers bail out leaving the state unchanged. -/
def parsedBoard (fen : List Char) : Option (List (List Char) × Board) :=
  let parts := fenFields fen
  if parts.length < 6 ∨ parts.getD 0 [] = [] then none
  else
    let ranks := splitOnChar '/' (parts.getD 0 [])
    if ranks.length ≠ 8 then none
    else some (parts, ranks.map parseRank)

/-! ## Board Edit Engine operations (App.jsx)

Each operation is modelled as the FEN string the handler computes and
passes to setFen.  The subsequent best-effort reparse through the chess.js
library (an external collaborator excluded from the repository) only feeds
a normalized game object; the handler restores the pre-edit turn if that
parse would change it, and the syntactically built FEN remains the display
state, so the functions below are the FEN semantics of the handlers. -/

/-- Move a piece: the onDrop handler of App.jsx.  Returns none when the
handler returns false without touching the FEN state, and some newFen when
it returns true after calling setFen newFen. -/
def onDrop (source target fen : List Char) : Option (List Char) :=
  if ¬ (jsValidSquare source && jsValidSquare target) then none
  else
    match parsedBoard fen with
    | none => none
    | some (parts, board) =>
      if 7 < squareRow source ∨ 7 < squareCol source then none
      else
        match getSq board (squareRow source) (squareCol source) with
        | none => none
        | some p =>
          if 7 < squareRow target ∨ 7 < squareCol target then none
          else
            some (rebuildFen
              (setSq (setSq board (squareRow source) (squareCol source) none)
                (squareRow target) (squareCol target) (some p)) parts)

/-- Remove a piece: the handleSquareRightClick handler of App.jsx.
Returns the FEN state after the handler runs (unchanged when it bails out
or the square is empty). -/
def handleSquareRightClick (square fen : List Char) : List Char :=
  if ¬ jsValidSquare square then fen
  else
    match parsedBoard fen with
    | none => fen
    | some (parts, board) =>
      if 7 < squareRow square ∨ 7 < squareCol square then fen
      else
        match getSq board (squareRow square) (squareCol square) with
        | none => fen
        | some _ =>
          rebuildFen (setSq board (squareRow square) (squareCol square) none) parts

/-- Place a piece from the palette: the palette branch of enhancedOnDrop in
App.jsx (a dragged piece and no source square).  Returns the FEN state
after the handler runs. -/
def enhancedOnDrop (piece : Piece) (target fen : List Char) : List Char :=
  if ¬ jsValidSquare target then fen
  else
    match parsedBoard fen with
    | none => fen
    | some (parts, board) =>
      if 7 < squareRow target ∨ 7 < squareCol target then fen
      else rebuildFen (setSq board (squareRow target) (squareCol target) (some piece)) parts

/-! ## Transform Engine (App.jsx) -/

/-- Case-swap the castling field: the identical K/Q/k/q swap blocks of
swapPieceColors and rotateFEN180 in App.jsx.  The letters are re-emitted in
the fixed order k, q, K, Q and the empty set is normalized to a dash. -/
def castlingConcat (castling : List Char) : List Char :=
  (if 'K' ∈ castling then ['k'] else []) ++
  (if 'Q' ∈ castling then ['q'] else []) ++
  (if 'k' ∈ castling then ['K'] else []) ++
  (if 'q' ∈ castling then ['Q'] else [])

def swapCastlingLetters (castling : List Char) : List Char :=
  if castling = str "-" then str "-"
  else if castlingConcat castling = [] then str "-"
  else castlingConcat castling

/-- Case-swap one rank character: digits are kept, letters change case,
anything else is dropped (the character loop of the swappedRanks map of
swapPieceColors). -/
def swapRankChar (ch : Char) : Option Char :=
  if 49 ≤ ch.toNat ∧ ch.toNat ≤ 56 then some ch
  else if 65 ≤ ch.toNat ∧ ch.toNat ≤ 90 then some (jsToLower ch)
  else if 97 ≤ ch.toNat ∧ ch.toNat ≤ 122 then some (jsToUpper ch)
  else none

/-- Case-swap the characters of one rank string. -/
def swapRankChars (rank : List Char) : List Char :=
  rank.filterMap swapRankChar

/-- The swapPieceColors function of App.jsx: invert every piece color in
place, swap the castling letters, keep turn, en passant and the move
counters. -/
def swapPieceColors (fen : List Char) : List Char :=
  let parts := fenFields fen
  if parts.length < 6 then fen
  else
    let boardPart := parts.getD 0 []
    let turn := jsOr (parts.getD 1 []) (str "w")
    let castling := jsOr (parts.getD 2 []) (str "-")
    let enPassant := jsOr (parts.getD 3 []) (str "-")
    let halfmove := jsOr (parts.getD 4 []) (str "0")
    let fullmove := jsOr (parts.getD 5 []) (str "1")
    let ranks := splitOnChar '/' boardPart
    if ranks.length ≠ 8 then fen
    else
      joinSix (joinWith '/' (ranks.map swapRankChars)) turn
        (swapCastlingLetters castling) enPassant halfmove fullmove

/-- The file character emitted by rotateFEN180 for a file index 0..7
(String.fromCharCode of 97 + index, tabulated on its reachable domain). -/
def fileCharOf (k : Nat) : Char :=
  if k = 0 then 'a' else if k = 1 then 'b' else if k = 2 then 'c'
  else if k = 3 then 'd' else if k = 4 then 'e' else if k = 5 then 'f'
  else if k = 6 then 'g' else if k = 7 then 'h' else 'a'

/-- Rotate the en-passant square through 180 degrees: file a maps to h and
the rank maps to 9 minus the rank; anything that is not a valid square
becomes a dash (the rotatedEnPassant block of rotateFEN180).  Only the
first two characters are inspected. -/
def rotateEnPassant (ep : List Char) : List Char :=
  match ep with
  | f :: r :: _ =>
    if 97 ≤ f.toNat ∧ f.toNat ≤ 104 ∧ 49 ≤ r.toNat ∧ r.toNat ≤ 56 then
      [fileCharOf (7 - (f.toNat - 97)), countChar (9 - (r.toNat - 48))]
    else str "-"
  | _ => str "-"

/-- The rotateFEN180 function of App.jsx: reverse the rank order and each
rank string, swap the castling letters, rotate the en-passant square, keep
turn and the move counters. -/
def rotateFEN180 (fen : List Char) : List Char :=
  let parts := fenFields fen
  if parts.length < 6 then fen
  else
    let boardPart := parts.getD 0 []
    let turn := jsOr (parts.getD 1 []) (str "w")
    let castling := jsOr (parts.getD 2 []) (str "-")
    let enPassant := jsOr (parts.getD 3 []) (str "-")
    let halfmove := jsOr (parts.getD 4 []) (str "0")
    let fullmove := jsOr (parts.getD 5 []) (str "1")
    let ranks := splitOnChar '/' boardPart
    if ranks.length ≠ 8 then fen
    else
      joinSix (joinWith '/' ((ranks.reverse).map List.reverse)) turn
        (swapCastlingLetters castling) (rotateEnPassant enPassant) halfmove fullmove

/-! ## Validator (App.jsx) -/

/-- ASCII whitespace, the relevant fragment of the JavaScript regexp
character class backslash-s used by validateFENFormat (FEN text only ever
contains spaces). -/
def isWsChar (c : Char) : Bool :=
  c = ' ' || c = '\t' || c = '\n' || c = '\r' || c.toNat = 11 || c.toNat = 12

/-- JavaScript String.trim (ASCII whitespace). -/
def jsTrim (l : List Char) : List Char :=
  ((l.dropWhile isWsChar).reverse.dropWhile isWsChar).reverse

/-- Split on runs of whitespace: the trim().split(regexp) combination of
validateFENFormat, modelled for inputs with no leading or trailing
whitespace (jsTrim is always applied first). -/
def splitWsGo : List Char → List Char → List (List Char)
  | [], cur => [cur.reverse]
  | ch :: rest, cur =>
    if isWsChar ch then
      match rest with
      | [] => splitWsGo [] cur
      | c2 :: rest2 =>
        if isWsChar c2 then splitWsGo (c2 :: rest2) cur
        else cur.reverse :: splitWsGo (c2 :: rest2) []
    else splitWsGo rest (ch :: cur)

/-- Split a trimmed string on whitespace runs. -/
def splitWs (l : List Char) : List (List Char) :=
  splitWsGo l []

/-- One character of the regexp class used for FEN ranks by
validateFENFormat. -/
def isFenBoardChar (c : Char) : Bool :=
  c ∈ ['r', 'n', 'b', 'q', 'k', 'p', 'R', 'N', 'B', 'Q', 'K', 'P'] ||
    decide (49 ≤ c.toNat ∧ c.toNat ≤ 56)

/-- The square-counting loop of validateFENFormat: a digit adds its value,
any other character adds one column. -/
def rankSquareCount (r : List Char) : Nat :=
  r.foldl (fun acc ch => acc + (if 49 ≤ ch.toNat ∧ ch.toNat ≤ 56 then ch.toNat - 48 else 1)) 0

/-- The en-passant regexp of validateFENFormat: a file a..h followed by
rank 3 or 6. -/
def isEpSquare : List Char → Bool
  | [f, r] => decide (97 ≤ f.toNat ∧ f.toNat ≤ 104) && (r = '3' || r = '6')
  | _ => false

/-- The validateFENFormat function of App.jsx: purely structural FEN
validation used before constructing analysis links and after flips. -/
def validateFENFormat (fen : List Char) : Bool :=
  if fen = [] then false
  else if (splitWs (jsTrim fen)).length ≠ 6 then false
  else if (splitOnChar '/' ((splitWs (jsTrim fen)).getD 0 [])).length ≠ 8 then false
  else if ¬ (splitOnChar '/' ((splitWs (jsTrim fen)).getD 0 [])).all
      (fun r => (¬ r.isEmpty && r.all isFenBoardChar) && rankSquareCount r = 8) then false
  else if ¬ ((splitWs (jsTrim fen)).getD 1 [] = str "w" ∨
      (splitWs (jsTrim fen)).getD 1 [] = str "b") then false
  else if ¬ ((splitWs (jsTrim fen)).getD 2 [] = str "-" ∨
      ((splitWs (jsTrim fen)).getD 2 []).all (fun c => c ∈ ['K', 'Q', 'k', 'q'])) then false
  else if ¬ ((splitWs (jsTrim fen)).getD 3 [] = str "-" ∨
      isEpSquare ((splitWs (jsTrim fen)).getD 3 [])) then false
  else if ¬ (¬ ((splitWs (jsTrim fen)).getD 4 []).isEmpty &&
      ((splitWs (jsTrim fen)).getD 4 []).all Char.isDigit) then false
  else if ¬ (¬ ((splitWs (jsTrim fen)).getD 5 []).isEmpty &&
      ((splitWs (jsTrim fen)).getD 5 []).all Char.isDigit) then false
  else true

/-! ## User-facing transform handlers (App.jsx) -/

/-- The handleSwapColors handler: swap the piece colors, then rebuild the
FEN with the pre-swap turn forced back in (the source re-reads
currentFenParts to preserve the turn). -/
def handleSwapColors (fen : List Char) : List Char :=
  let currentParts := fenFields fen
  let preservedTurn := jsOr (currentParts.getD 1 []) (str "w")
  let sp := fenFields (swapPieceColors fen)
  joinSix (sp.getD 0 (str "undefined")) preservedTurn
    (sp.getD 2 (str "undefined")) (sp.getD 3 (str "undefined"))
    (sp.getD 4 (str "undefined")) (sp.getD 5 (str "undefined"))

/-- The handleFlipBoard handler: rotate the FEN 180 degrees and keep the
result only if it passes validateFENFormat, otherwise leave the state
unchanged. -/
def handleFlipBoard (fen : List Char) : List Char :=
  let flipped := rotateFEN180 fen
  if validateFENFormat flipped then flipped else fen

/-- Modelled from the spec: handleReset builds a fresh chess.js game (an
external collaborator, not part of the repository source) whose FEN is the
standard initial position, as stated in the Reset bullet of the spec. -/
def handleReset : List Char :=
  str "rnbqkbnr/pppppppp/8/8/8/8/PPPPPPPP/RNBQKBNR w KQkq - 0 1"

/-! ## Detector Grid Mapper (visionService.ts)

Pixel coordinates and confidences are JavaScript numbers; they are
modelled as rationals, on which the comparisons and floor used by the
mapper agree with the float semantics for the finite values the upstream
validation admits. -/

structure ChessPieceDetection where
  x : ℚ
  y : ℚ
  width : ℚ
  height : ℚ
  cls : List Char
  confidence : ℚ
deriving DecidableEq

/-- One cell of the intermediate grid of detectionsToFEN. -/
structure GridSquare where
  row : Nat
  col : Nat
  piece : Option Char
  confidence : ℚ
deriving DecidableEq

/-- The pieceClassToFEN lookup table of visionService.ts (both the long
white-pawn style and the short w-pawn style labels). -/
def pieceClassToFEN (s : List Char) : Option Char :=
  if s = str "white-pawn" then some 'P'
  else if s = str "white-rook" then some 'R'
  else if s = str "white-knight" then some 'N'
  else if s = str "white-bishop" then some 'B'
  else if s = str "white-queen" then some 'Q'
  else if s = str "white-king" then some 'K'
  else if s = str "black-pawn" then some 'p'
  else if s = str "black-rook" then some 'r'
  else if s = str "black-knight" then some 'n'
  else if s = str "black-bishop" then some 'b'
  else if s = str "black-queen" then some 'q'
  else if s = str "black-king" then some 'k'
  else if s = str "w-pawn" then some 'P'
  else if s = str "w-rook" then some 'R'
  else if s = str "w-knight" then some 'N'
  else if s = str "w-bishop" then some 'B'
  else if s = str "w-queen" then some 'Q'
  else if s = str "w-king" then some 'K'
  else if s = str "b-pawn" then some 'p'
  else if s = str "b-rook" then some 'r'
  else if s = str "b-knight" then some 'n'
  else if s = str "b-bishop" then some 'b'
  else if s = str "b-queen" then some 'q'
  else if s = str "b-king" then some 'k'
  else none

/-- Lower-case a whole class-label string. -/
def jsToLowerStr (s : List Char) : List Char :=
  s.map jsToLower

/-- Math.max(0, Math.min(7, n)).  The result is a natural row or column
index. -/
def clamp07 (n : ℤ) : Nat :=
  (max 0 (min 7 n)).toNat

/-- The empty 8x8 grid detectionsToFEN starts from (row 0, col 0, no
piece, confidence 0 in every cell).  The grid is modelled as a function
from row and column indices, matching the indexed reads and writes of the
source. -/
def emptyGrid : Nat → Nat → GridSquare :=
  fun _ _ => ⟨0, 0, none, 0⟩

/-- Process one detection: bucket it into a grid cell by flooring its
center against the square size, clamp to the board, look up its class and
keep it only if the cell is empty or it has strictly higher confidence
than the current occupant (the detections.forEach body of
detectionsToFEN). -/
def applyDet (minX minY squareWidth squareHeight : ℚ)
    (grid : Nat → Nat → GridSquare) (det : ChessPieceDetection) :
    Nat → Nat → GridSquare :=
  let col := clamp07 ⌊(det.x - minX) / squareWidth⌋
  let row := clamp07 ⌊(det.y - minY) / squareHeight⌋
  match pieceClassToFEN (jsToLowerStr det.cls) with
  | none => grid
  | some fenPiece =>
    let cur := grid row col
    if cur.piece = none ∨ cur.confidence < det.confidence then
      fun r c => if r = row ∧ c = col then ⟨row, col, some fenPiece, det.confidence⟩ else grid r c
    else grid

/-- Run-length encode one grid row into a FEN rank (the fenBoard loop of
detectionsToFEN). -/
def rleRank : List (Option Char) → Nat → List Char
  | [], 0 => []
  | [], n + 1 => [countChar (n + 1)]
  | none :: rest, n => rleRank rest (n + 1)
  | some p :: rest, 0 => p :: rleRank rest 0
  | some p :: rest, n + 1 => countChar (n + 1) :: p :: rleRank rest 0

/-- The all-empty-board FEN returned on degenerate bounds. -/
def defaultEmptyFEN : List Char :=
  str "8/8/8/8/8/8/8/8 w - - 0 1"

/-- JavaScript falsiness of an optional numeric argument: absent or zero
(the !imageWidth tests of detectionsToFEN). -/
def jsFalsyNum : Option ℚ → Bool
  | none => true
  | some q => q = 0

/-- The board bounds detectionsToFEN computes.  With usable image
dimensions the bounds are the image shrunk by a 5 percent margin;
otherwise they are the bounding rectangle of the detection boxes.  In that
branch an empty detection list leaves the JavaScript accumulators at plus
and minus infinity, which is the one non-finite case; it is modelled as
none and always fails the subsequent boardWidth check, exactly as
negative infinity fails boardWidth <= 0 in the source. -/
def boardBounds (dets : List ChessPieceDetection) (imageWidth imageHeight : Option ℚ) :
    Option (ℚ × ℚ × ℚ × ℚ) :=
  if jsFalsyNum imageWidth || jsFalsyNum imageHeight then
    match dets with
    | [] => none
    | d :: rest =>
      let init : ℚ × ℚ × ℚ × ℚ :=
        (d.x - d.width / 2, d.y - d.height / 2, d.x + d.width / 2, d.y + d.height / 2)
      let acc := rest.foldl
        (fun (a : ℚ × ℚ × ℚ × ℚ) e =>
          (min a.1 (e.x - e.width / 2), min a.2.1 (e.y - e.height / 2),
           max a.2.2.1 (e.x + e.width / 2), max a.2.2.2 (e.y + e.height / 2)))
        init
      some (acc.1, acc.2.1, acc.2.2.1 - acc.1, acc.2.2.2 - acc.2.1)
  else
    let w := imageWidth.getD 0
    let h := imageHeight.getD 0
    let margin : ℚ := 5 / 100
    some (w * margin, h * margin, w * (1 - 2 * margin), h * (1 - 2 * margin))

/-- The detectionsToFEN function of visionService.ts.  The additional
isFinite guard of the source can only fire on non-finite inputs, which the
upstream detection validation excludes; over the rationals the square size
inherits positivity from the board width, so that guard is the
squareWidth <= 0 test. -/
def detectionsToFEN (dets : List ChessPieceDetection) (imageWidth imageHeight : Option ℚ) :
    List Char :=
  match boardBounds dets imageWidth imageHeight with
  | none => defaultEmptyFEN
  | some (minX, minY, boardWidth, boardHeight) =>
    if boardWidth ≤ 0 ∨ boardHeight ≤ 0 then defaultEmptyFEN
    else
      let squareWidth := boardWidth / 8
      let squareHeight := boardHeight / 8
      if squareWidth ≤ 0 ∨ squareHeight ≤ 0 then defaultEmptyFEN
      else
        let grid := dets.foldl (applyDet minX minY squareWidth squareHeight) emptyGrid
        joinWith '/' ((List.range 8).map
            (fun r => rleRank ((List.range 8).map (fun c => (grid r c).piece)) 0)) ++
          str " w - - 0 1"

/-! ## Rate limiter (App.jsx, handleImageUpload) -/

/-- The 1 second cooldown between detection API calls. -/
def API_CALL_COOLDOWN : ℤ := 1000

/-- Outcome of the rate-limiting prologue of handleImageUpload. -/
structure UploadGateResult where
  apiCalled : Bool
  waitMessageSeconds : Option ℤ
  lastApiCall : ℤ
deriving DecidableEq

/-- The rate-limiting prologue of handleImageUpload: given the stored
timestamp of the last API call and the current time in milliseconds,
either reject the request locally (no network call, a wait-time message of
ceil(remaining / 1000) seconds, stored timestamp unchanged) or proceed to
the API call after recording the current time. -/
def handleImageUpload (last now : ℤ) : UploadGateResult :=
  if now - last < API_CALL_COOLDOWN then
    ⟨false, some ⌈((API_CALL_COOLDOWN - (now - last) : ℤ) : ℚ) / 1000⌉, last⟩
  else
    ⟨true, none, now⟩


/-! ## Edit operations as a state machine

The five board-level operations the spec quantifies over, acting on the
FEN string state through the handlers modelled above. -/

inductive EditOp
  | place (piece : Piece) (square : List Char)
  | remove (square : List Char)
  | move (source target : List Char)
  | rotate180
  | swapColors

/-- Apply one edit operation to the FEN state.  A failed Move (onDrop
returning false) leaves the state unchanged, as the handler never calls
setFen in that case. -/
def applyEdit (op : EditOp) (fen : List Char) : List Char :=
  match op with
  | EditOp.place p sq => enhancedOnDrop p sq fen
  | EditOp.remove sq => handleSquareRightClick sq fen
  | EditOp.move s t => (onDrop s t fen).getD fen
  | EditOp.rotate180 => handleFlipBoard fen
  | EditOp.swapColors => handleSwapColors fen

/-- Apply a sequence of edit operations. -/
def applyEdits (ops : List EditOp) (fen : List Char) : List Char :=
  ops.foldl (fun f op => applyEdit op f) fen

/-! ## Specification-side definitions

These definitions transcribe the wording of the specification claims; the
theorems below relate them to the implementation functions. -/

/-- Invert the case of one letter, as the SwapColors bullet of the spec
describes piece-color inversion (uppercase and lowercase exchanged, other
characters untouched). -/
def swapLetter (ch : Char) : Char :=
  if 65 ≤ ch.toNat ∧ ch.toNat ≤ 90 then jsToLower ch
  else if 97 ≤ ch.toNat ∧ ch.toNat ≤ 122 then jsToUpper ch
  else ch

/-- The FEN board alphabet: the twelve piece letters and the digits 1..8. -/
def fenBoardAlpha : List Char :=
  ['1', '2', '3', '4', '5', '6', '7', '8',
   'p', 'n', 'b', 'r', 'q', 'k', 'P', 'N', 'B', 'R', 'Q', 'K']

/-- Column width contributed by one rank character, per the validator
claim: a digit contributes its value, a piece letter contributes one. -/
def charColumns (ch : Char) : Nat :=
  if 49 ≤ ch.toNat ∧ ch.toNat ≤ 56 then ch.toNat - 48 else 1

/-- The acceptance condition of the structural validator as the claim
states it: exactly 6 whitespace-separated fields, 8 ranks over the FEN
board alphabet each summing to exactly 8 columns, turn w or b, castling a
dash or letters among K, Q, k, q, en passant a dash or a file a..h with
rank 3 or 6, and numeric halfmove and fullmove fields. -/
def specStructurallyValid (fen : List Char) : Prop :=
  (splitWs (jsTrim fen)).length = 6 ∧
  (splitOnChar '/' ((splitWs (jsTrim fen)).getD 0 [])).length = 8 ∧
  (∀ r ∈ splitOnChar '/' ((splitWs (jsTrim fen)).getD 0 []),
    r ≠ [] ∧ (∀ ch ∈ r, isFenBoardChar ch = true) ∧ (r.map charColumns).sum = 8) ∧
  ((splitWs (jsTrim fen)).getD 1 [] = str "w" ∨ (splitWs (jsTrim fen)).getD 1 [] = str "b") ∧
  ((splitWs (jsTrim fen)).getD 2 [] = str "-" ∨
    ∀ ch ∈ (splitWs (jsTrim fen)).getD 2 [], ch ∈ ['K', 'Q', 'k', 'q']) ∧
  ((splitWs (jsTrim fen)).getD 3 [] = str "-" ∨
    ∃ fc rc, (splitWs (jsTrim fen)).getD 3 [] = [fc, rc] ∧
      97 ≤ fc.toNat ∧ fc.toNat ≤ 104 ∧ (rc = '3' ∨ rc = '6')) ∧
  ((splitWs (jsTrim fen)).getD 4 [] ≠ [] ∧
    ∀ ch ∈ (splitWs (jsTrim fen)).getD 4 [], ch.isDigit = true) ∧
  ((splitWs (jsTrim fen)).getD 5 [] ≠ [] ∧
    ∀ ch ∈ (splitWs (jsTrim fen)).getD 5 [], ch.isDigit = true)

/-- The first detection of maximal confidence in a list, starting from a
current best: a later detection replaces the best exactly when its
confidence is strictly higher.  This transcribes the collision policy
sentence of the spec (higher confidence wins, first seen wins ties). -/
def firstMaxDet (d : ChessPieceDetection) : List ChessPieceDetection → ChessPieceDetection
  | [] => d
  | e :: rest => if d.confidence < e.confidence then firstMaxDet e rest else firstMaxDet d rest


/-- A small two-king position used as a concrete witness input. -/
def twoKingsFen : List Char := str "k7/8/8/8/8/8/8/7K w - - 0 1"

/-- The field list of twoKingsFen. -/
def twoKingsParts : List (List Char) :=
  [str "k7/8/8/8/8/8/8/7K", str "w", str "-", str "-", str "0", str "1"]

/-- The parsed board of twoKingsFen. -/
def twoKingsBoard : Board :=
  [some ⟨PieceKind.king, PieceColor.b⟩ :: List.replicate 7 none,
   List.replicate 8 none, List.replicate 8 none, List.replicate 8 none,
   List.replicate 8 none, List.replicate 8 none, List.replicate 8 none,
   List.replicate 7 none ++ [some ⟨PieceKind.king, PieceColor.w⟩]]


/-- A concrete white-pawn detection used as a witness input. -/
def detWPawn : ChessPieceDetection := ⟨0, 0, 0, 0, str "w-pawn", 1⟩

/-- A concrete black-queen detection used as a witness input. -/
def detBQueen : ChessPieceDetection := ⟨0, 0, 0, 0, str "b-queen", 0⟩

/-! ## Lemmas about splitting and joining -/

theorem splitOnChar_ne_nil (c : Char) (l : List Char) : splitOnChar c l ≠ [] := by
  cases l with
  | nil => simp [splitOnChar]
  | cons x xs =>
    simp only [splitOnChar]
    split
    · simp
    · split <;> simp

theorem splitOnChar_of_not_mem {c : Char} {l : List Char} (h : c ∉ l) :
    splitOnChar c l = [l] := by
  induction l with
  | nil => rfl
  | cons x xs ih =>
    simp only [List.mem_cons, not_or] at h
    have hxc : ¬ (x = c) := fun hx => h.1 hx.symm
    simp only [splitOnChar, if_neg hxc, ih h.2]

theorem splitOnChar_append_cons (c : Char) {l₁ : List Char} (l₂ : List Char)
    (h : c ∉ l₁) : splitOnChar c (l₁ ++ c :: l₂) = l₁ :: splitOnChar c l₂ := by
  induction l₁ with
  | nil => simp [splitOnChar]
  | cons x xs ih =>
    simp only [List.mem_cons, not_or] at h
    have hxc : ¬ (x = c) := fun hx => h.1 hx.symm
    have hrec := ih h.2
    simp only [List.append_eq, List.cons_append, splitOnChar, if_neg hxc, hrec]

theorem not_mem_of_mem_splitOnChar {c : Char} {l : List Char} {p : List Char}
    (hp : p ∈ splitOnChar c l) : c ∉ p := by
  induction l generalizing p with
  | nil =>
    simp only [splitOnChar, List.mem_singleton] at hp
    subst hp; simp
  | cons x xs ih =>
    simp only [splitOnChar] at hp
    split at hp
    · rcases List.mem_cons.mp hp with h | h
      · subst h; simp
      · exact ih h
    · rename_i hxc
      rcases hsp : splitOnChar c xs with _ | ⟨y, ys⟩
      · exact absurd hsp (splitOnChar_ne_nil c xs)
      · rw [hsp] at hp
        rcases List.mem_cons.mp hp with h | h
        · subst h
          intro hmem
          rcases List.mem_cons.mp hmem with h | h
          · exact hxc h.symm
          · exact ih (hsp ▸ List.mem_cons_self y ys) h
        · exact ih (hsp ▸ List.mem_cons_of_mem y h)

theorem mem_of_mem_splitOnChar {c x : Char} {l p : List Char}
    (hp : p ∈ splitOnChar c l) (hx : x ∈ p) : x ∈ l := by
  induction l generalizing p with
  | nil =>
    simp only [splitOnChar, List.mem_singleton] at hp
    subst hp; exact absurd hx (List.not_mem_nil x)
  | cons y ys ih =>
    simp only [splitOnChar] at hp
    split at hp
    · rcases List.mem_cons.mp hp with h | h
      · subst h; exact absurd hx (List.not_mem_nil x)
      · exact List.mem_cons_of_mem y (ih h hx)
    · rcases hsp : splitOnChar c ys with _ | ⟨z, zs⟩
      · exact absurd hsp (splitOnChar_ne_nil c ys)
      · rw [hsp] at hp
        rcases List.mem_cons.mp hp with h | h
        · subst h
          rcases List.mem_cons.mp hx with h | h
          · exact h ▸ List.mem_cons_self y ys
          · exact List.mem_cons_of_mem y (ih (hsp ▸ List.mem_cons_self z zs) h)
        · exact List.mem_cons_of_mem y (ih (hsp ▸ List.mem_cons_of_mem z h) hx)

theorem joinWith_splitOnChar (c : Char) (l : List Char) :
    joinWith c (splitOnChar c l) = l := by
  induction l with
  | nil => rfl
  | cons x xs ih =>
    simp only [splitOnChar]
    split
    · rename_i hx
      subst hx
      rcases hsp : splitOnChar x xs with _ | ⟨y, ys⟩
      · exact absurd hsp (splitOnChar_ne_nil x xs)
      · rw [hsp] at ih
        simp only [joinWith]
        rw [ih]
        simp
    · rcases hsp : splitOnChar c xs with _ | ⟨y, ys⟩
      · exact absurd hsp (splitOnChar_ne_nil c xs)
      · rw [hsp] at ih
        cases ys with
        | nil => simpa [joinWith] using congrArg (x :: ·) ih
        | cons z zs => simpa [joinWith] using congrArg (x :: ·) ih

theorem splitOnChar_joinWith (c : Char) (L : List (List Char))
    (hne : L ≠ []) (h : ∀ p ∈ L, c ∉ p) :
    splitOnChar c (joinWith c L) = L := by
  induction L with
  | nil => exact absurd rfl hne
  | cons p ps ih =>
    cases ps with
    | nil =>
      simp only [joinWith]
      exact splitOnChar_of_not_mem (h p (List.mem_cons_self p []))
    | cons q qs =>
      simp only [joinWith]
      rw [splitOnChar_append_cons c _ (h p (List.mem_cons_self p _))]
      rw [ih (by simp) (fun r hr => h r (List.mem_cons_of_mem p hr))]

theorem mem_joinWith {c x : Char} {L : List (List Char)}
    (hx : x ∈ joinWith c L) : x = c ∨ ∃ p ∈ L, x ∈ p := by
  induction L with
  | nil => exact absurd hx (List.not_mem_nil x)
  | cons p ps ih =>
    cases ps with
    | nil =>
      simp only [joinWith] at hx
      exact Or.inr ⟨p, List.mem_cons_self p [], hx⟩
    | cons q qs =>
      simp only [joinWith, List.mem_append, List.mem_cons] at hx
      rcases hx with h | h | h
      · exact Or.inr ⟨p, List.mem_cons_self p _, h⟩
      · exact Or.inl h
      · rcases ih h with h' | ⟨r, hr, hxr⟩
        · exact Or.inl h'
        · exact Or.inr ⟨r, List.mem_cons_of_mem p hr, hxr⟩

/-! ## Structural helper lemmas -/

theorem mem_fenFields_not_space {fen p : List Char} (h : p ∈ fenFields fen) :
    ' ' ∉ p :=
  not_mem_of_mem_splitOnChar h

theorem fenFields_joinSix {b t c e h f : List Char}
    (hb : ' ' ∉ b) (ht : ' ' ∉ t) (hc : ' ' ∉ c) (he : ' ' ∉ e)
    (hh : ' ' ∉ h) (hf : ' ' ∉ f) :
    fenFields (joinSix b t c e h f) = [b, t, c, e, h, f] := by
  unfold fenFields joinSix
  rw [splitOnChar_append_cons ' ' _ hb, splitOnChar_append_cons ' ' _ ht,
    splitOnChar_append_cons ' ' _ hc, splitOnChar_append_cons ' ' _ he,
    splitOnChar_append_cons ' ' _ hh, splitOnChar_of_not_mem hf]

theorem countChar_sep_free (n : Nat) : countChar n ≠ ' ' ∧ countChar n ≠ '/' := by
  unfold countChar
  repeat' split
  all_goals exact ⟨by decide, by decide⟩

theorem pieceChar_sep_free (p : Piece) : pieceChar p ≠ ' ' ∧ pieceChar p ≠ '/' := by
  rcases p with ⟨t, c⟩
  cases t <;> cases c <;> exact ⟨by decide, by decide⟩

theorem encRank_sep_free :
    ∀ (row : List (Option Piece)) (n : Nat) {x : Char},
      x ∈ encRank row n → x ≠ ' ' ∧ x ≠ '/'
  | [], 0, x, hx => absurd hx (List.not_mem_nil x)
  | [], n + 1, x, hx => by
    simp only [encRank, List.mem_singleton] at hx
    subst hx
    exact countChar_sep_free (n + 1)
  | none :: rest, n, x, hx => encRank_sep_free rest (n + 1) hx
  | some p :: rest, 0, x, hx => by
    simp only [encRank, List.mem_cons] at hx
    rcases hx with h | h
    · subst h; exact pieceChar_sep_free p
    · exact encRank_sep_free rest 0 h
  | some p :: rest, n + 1, x, hx => by
    simp only [encRank, List.mem_cons] at hx
    rcases hx with h | h | h
    · subst h; exact countChar_sep_free (n + 1)
    · subst h; exact pieceChar_sep_free p
    · exact encRank_sep_free rest 0 h

theorem boardFenOf_space_free (b : Board) : ' ' ∉ boardFenOf b := by
  intro hmem
  rcases mem_joinWith hmem with h | ⟨p, hp, hxp⟩
  · exact absurd h (by decide)
  · rcases List.mem_map.mp hp with ⟨row, _, rfl⟩
    exact (encRank_sep_free row 0 hxp).1 rfl

theorem getD_mem_or {α : Type} (l : List α) (i : Nat) (d : α) :
    l.getD i d ∈ l ∨ l.getD i d = d := by
  induction l generalizing i with
  | nil => simp
  | cons a as ih =>
    cases i with
    | zero => simp
    | succ j =>
      rcases ih j with h | h
      · exact Or.inl (List.mem_cons_of_mem a (by simpa using h))
      · exact Or.inr (by simpa using h)

theorem jsOr_space_free {a b : List Char} (ha : ' ' ∉ a) (hb : ' ' ∉ b) :
    ' ' ∉ jsOr a b := by
  unfold jsOr
  split <;> assumption

theorem getD_fenFields_space_free (fen : List Char) (i : Nat) :
    ' ' ∉ (fenFields fen).getD i [] := by
  rcases getD_mem_or (fenFields fen) i [] with h | h
  · exact mem_fenFields_not_space h
  · rw [h]; simp

theorem fenFields_rebuildFen (b : Board) (fen : List Char) :
    fenFields (rebuildFen b (fenFields fen)) =
      [boardFenOf b,
       jsOr ((fenFields fen).getD 1 []) (str "w"),
       jsOr ((fenFields fen).getD 2 []) (str "-"),
       jsOr ((fenFields fen).getD 3 []) (str "-"),
       jsOr ((fenFields fen).getD 4 []) (str "0"),
       jsOr ((fenFields fen).getD 5 []) (str "1")] := by
  unfold rebuildFen
  exact fenFields_joinSix (boardFenOf_space_free b)
    (jsOr_space_free (getD_fenFields_space_free fen 1) (by decide))
    (jsOr_space_free (getD_fenFields_space_free fen 2) (by decide))
    (jsOr_space_free (getD_fenFields_space_free fen 3) (by decide))
    (jsOr_space_free (getD_fenFields_space_free fen 4) (by decide))
    (jsOr_space_free (getD_fenFields_space_free fen 5) (by decide))

theorem parsedBoard_eq_some {fen : List Char} {pr : List (List Char)} {bd : Board}
    (h : parsedBoard fen = some (pr, bd)) :
    pr = fenFields fen ∧ 6 ≤ (fenFields fen).length := by
  simp only [parsedBoard] at h
  split at h
  · exact absurd h (by simp)
  · rename_i hcond
    split at h
    · exact absurd h (by simp)
    · simp only [Option.some.injEq, Prod.mk.injEq] at h
      push_neg at hcond
      exact ⟨h.1.symm, hcond.1⟩

theorem list_len6 {α : Type} {l : List α} (h : l.length = 6) :
    ∃ a b c d e f, l = [a, b, c, d, e, f] := by
  rcases l with _ | ⟨a, _ | ⟨b, _ | ⟨c, _ | ⟨d, _ | ⟨e, _ | ⟨f, rest⟩⟩⟩⟩⟩⟩ <;>
    simp_all

/-! ## More helper lemmas -/

theorem jsOr_eq_self {a : List Char} (b : List Char) (h : a ≠ []) : jsOr a b = a := by
  unfold jsOr
  rw [if_neg h]

theorem getD_space_free_default (fen : List Char) (i : Nat) {d : List Char}
    (hd : ' ' ∉ d) : ' ' ∉ (fenFields fen).getD i d := by
  rcases getD_mem_or (fenFields fen) i d with h | h
  · exact mem_fenFields_not_space h
  · rw [h]; exact hd

theorem mem_castlingConcat {x : Char} {c : List Char} :
    x ∈ castlingConcat c ↔
      ('K' ∈ c ∧ x = 'k') ∨ ('Q' ∈ c ∧ x = 'q') ∨ ('k' ∈ c ∧ x = 'K') ∨ ('q' ∈ c ∧ x = 'Q') := by
  unfold castlingConcat
  by_cases hK : 'K' ∈ c <;> by_cases hQ : 'Q' ∈ c <;>
    by_cases hk : 'k' ∈ c <;> by_cases hq : 'q' ∈ c <;>
    simp [hK, hQ, hk, hq]

theorem swapCastlingLetters_space_free (c : List Char) :
    ' ' ∉ swapCastlingLetters c := by
  unfold swapCastlingLetters
  split
  · decide
  · split
    · decide
    · intro hmem
      rcases mem_castlingConcat.mp hmem with ⟨-, h⟩ | ⟨-, h⟩ | ⟨-, h⟩ | ⟨-, h⟩ <;>
        exact absurd h (by decide)

theorem fileCharOf_mem (k : Nat) :
    fileCharOf k ∈ ['a', 'b', 'c', 'd', 'e', 'f', 'g', 'h'] := by
  unfold fileCharOf
  repeat' split
  all_goals decide

theorem countChar_mem (n : Nat) :
    countChar n ∈ ['0', '1', '2', '3', '4', '5', '6', '7', '8'] := by
  unfold countChar
  repeat' split
  all_goals decide

theorem fileCharOf_ne_space (k : Nat) : fileCharOf k ≠ ' ' := by
  intro h
  have := fileCharOf_mem k
  rw [h] at this
  exact absurd this (by decide)

theorem countChar_ne_space (n : Nat) : countChar n ≠ ' ' := by
  intro h
  have := countChar_mem n
  rw [h] at this
  exact absurd this (by decide)

theorem rotateEnPassant_space_free (ep : List Char) :
    ' ' ∉ rotateEnPassant ep := by
  unfold rotateEnPassant
  split
  · split
    · intro hmem
      rcases List.mem_cons.mp hmem with h | h
      · exact fileCharOf_ne_space _ h.symm
      · rcases List.mem_cons.mp h with h | h
        · exact countChar_ne_space _ h.symm
        · exact absurd h (List.not_mem_nil _)
    · decide
  · decide

/-- The fields of a rebuilt FEN after a board edit always form a
six-element list whose tail is the jsOr-defaulted original metadata. -/
theorem rebuildFen_tail (b : Board) (fen : List Char)
    (h6 : (fenFields fen).length = 6)
    (hne : ∀ x ∈ (fenFields fen).tail, x ≠ []) :
    (fenFields (rebuildFen b (fenFields fen))).tail = (fenFields fen).tail := by
  obtain ⟨p0, p1, p2, p3, p4, p5, hp⟩ := list_len6 h6
  rw [fenFields_rebuildFen, hp]
  rw [hp] at hne
  simp only [List.tail_cons, List.mem_cons, forall_eq_or_imp] at hne ⊢
  simp only [List.getD_cons_succ, List.getD_cons_zero]
  rw [jsOr_eq_self _ hne.1, jsOr_eq_self _ hne.2.1, jsOr_eq_self _ hne.2.2.1,
    jsOr_eq_self _ hne.2.2.2.1, jsOr_eq_self _ hne.2.2.2.2.1]

/-! ## Claim C1 -/

/-- Claim C1 counterexample: starting from Reset and removing the e2 pawn,
SwapColors does not produce the FEN the claim states.  The claimed board
string moves the e2 gap to the second rank string from the top, but
swapPieceColors keeps every rank string in place and only changes letter
case, so the gap stays in the seventh rank string. -/
theorem c1_counterexample :
    handleSwapColors (handleSquareRightClick (str "e2") handleReset) ≠
      str "RNBQKBNR/PPPP1PPP/8/8/8/8/pppppppp/rnbqkbnr w kqKQ - 0 1" := by decide

/-- Claim C1, amended: Reset gives the standard initial FEN; Remove on e2
gives the claimed intermediate FEN with turn and castling unchanged; and
SwapColors on that result gives the FEN with every rank string case
swapped in place (the e2 gap stays in the seventh rank string), turn still
w and castling re-emitted as kqKQ. -/
theorem c1_end_to_end :
    handleReset = str "rnbqkbnr/pppppppp/8/8/8/8/PPPPPPPP/RNBQKBNR w KQkq - 0 1" ∧
    handleSquareRightClick (str "e2") handleReset =
      str "rnbqkbnr/pppppppp/8/8/8/8/PPPP1PPP/RNBQKBNR w KQkq - 0 1" ∧
    handleSwapColors (handleSquareRightClick (str "e2") handleReset) =
      str "RNBQKBNR/PPPPPPPP/8/8/8/8/pppp1ppp/rnbqkbnr w kqKQ - 0 1" :=
  ⟨rfl, by decide, by decide⟩

/-! ## Claim C8 -/

/-- Claim C8: whenever the computed board bounds are degenerate (the
estimate branch with an empty detection list, where the JavaScript
accumulators stay infinite, or a computed board width or height at most
zero, which also covers zero or negative supplied dimensions),
detectionsToFEN returns the all-empty-board FEN with default metadata.
The function is total, so it never throws. -/
theorem c8_degenerate_bounds (dets : List ChessPieceDetection) (iw ih : Option ℚ)
    (hdeg : boardBounds dets iw ih = none ∨
      ∃ mX mY bw bh, boardBounds dets iw ih = some (mX, mY, bw, bh) ∧ (bw ≤ 0 ∨ bh ≤ 0)) :
    detectionsToFEN dets iw ih = defaultEmptyFEN ∧
    defaultEmptyFEN = str "8/8/8/8/8/8/8/8 w - - 0 1" := by
  refine ⟨?_, rfl⟩
  unfold detectionsToFEN
  rcases hdeg with h | ⟨mX, mY, bw, bh, h, hle⟩
  · rw [h]
  · rw [h]
    simp only [hle, if_pos]

/-- Claim C8 witness: an empty detection list with no image dimensions is
degenerate and maps to the all-empty-board FEN. -/
theorem c8_degenerate_bounds_witness :
    (boardBounds [] none none = none ∨
      ∃ mX mY bw bh, boardBounds [] none none = some (mX, mY, bw, bh) ∧ (bw ≤ 0 ∨ bh ≤ 0)) ∧
    (detectionsToFEN [] none none = defaultEmptyFEN ∧
      defaultEmptyFEN = str "8/8/8/8/8/8/8/8 w - - 0 1") :=
  ⟨Or.inl rfl, c8_degenerate_bounds [] none none (Or.inl rfl)⟩

/-! ## Claim C10 -/

/-- Claim C10: a detection request issued less than 1000 ms after the
previous one is rejected locally: no API call is made, the stored
timestamp is unchanged, and the surfaced wait time is the ceiling of the
remaining cooldown in seconds; a request issued at least 1000 ms after the
previous one proceeds to the API call; and at a 400 ms gap the reported
wait is 1 second, which is at least 0.6 seconds. -/
theorem c10_rate_limit (last now : ℤ) (h0 : 0 ≤ now - last) (h1 : now - last < 1000) :
    handleImageUpload last now =
      ⟨false, some ⌈((1000 - (now - last) : ℤ) : ℚ) / 1000⌉, last⟩ ∧
    (∀ t0 : ℤ, 1000 ≤ now - t0 → handleImageUpload t0 now = ⟨true, none, now⟩) ∧
    (now - last = 400 →
      (handleImageUpload last now).waitMessageSeconds = some 1 ∧ (3 : ℚ) / 5 ≤ (1 : ℚ)) := by
  have hrej : handleImageUpload last now =
      ⟨false, some ⌈((1000 - (now - last) : ℤ) : ℚ) / 1000⌉, last⟩ := by
    unfold handleImageUpload API_CALL_COOLDOWN
    rw [if_pos h1]
  refine ⟨hrej, ?_, ?_⟩
  · intro t0 ht0
    unfold handleImageUpload API_CALL_COOLDOWN
    rw [if_neg (not_lt.mpr ht0)]
  · intro h400
    rw [hrej, h400]
    refine ⟨?_, by norm_num⟩
    show some ⌈((1000 - (400 : ℤ) : ℤ) : ℚ) / 1000⌉ = some 1
    congr 1
    rw [Int.ceil_eq_iff]
    norm_num

/-- Claim C10 witness: a previous call at time 0 and a new request at time
400 is inside the cooldown, is rejected with a reported wait of 1 second,
and a request at time 1000 would proceed. -/
theorem c10_rate_limit_witness :
    ((0 : ℤ) ≤ 400 - 0 ∧ (400 : ℤ) - 0 < 1000) ∧
    (handleImageUpload 0 400 =
        ⟨false, some ⌈((1000 - ((400 : ℤ) - 0) : ℤ) : ℚ) / 1000⌉, 0⟩ ∧
      (∀ t0 : ℤ, 1000 ≤ 400 - t0 → handleImageUpload t0 400 = ⟨true, none, 400⟩) ∧
      ((400 : ℤ) - 0 = 400 →
        (handleImageUpload 0 400).waitMessageSeconds = some 1 ∧ (3 : ℚ) / 5 ≤ (1 : ℚ))) :=
  ⟨⟨by decide, by decide⟩, c10_rate_limit 0 400 (by decide) (by decide)⟩

/-! ## Per-operation field lemmas -/

theorem handleSquareRightClick_tail (sq fen : List Char)
    (h6 : (fenFields fen).length = 6)
    (hne : ∀ x ∈ (fenFields fen).tail, x ≠ []) :
    (fenFields (handleSquareRightClick sq fen)).tail = (fenFields fen).tail := by
  unfold handleSquareRightClick
  split
  · rfl
  · rcases hpb : parsedBoard fen with _ | ⟨parts, board⟩
    · simp [hpb]
    · obtain ⟨hparts, -⟩ := parsedBoard_eq_some hpb
      subst hparts
      simp only [hpb]
      split
      · rfl
      · rcases hg : getSq board (squareRow sq) (squareCol sq) with _ | p
        · simp [hg]
        · simp only [hg]
          exact rebuildFen_tail _ fen h6 hne

theorem enhancedOnDrop_tail (p : Piece) (sq fen : List Char)
    (h6 : (fenFields fen).length = 6)
    (hne : ∀ x ∈ (fenFields fen).tail, x ≠ []) :
    (fenFields (enhancedOnDrop p sq fen)).tail = (fenFields fen).tail := by
  unfold enhancedOnDrop
  split
  · rfl
  · rcases hpb : parsedBoard fen with _ | ⟨parts, board⟩
    · simp [hpb]
    · obtain ⟨hparts, -⟩ := parsedBoard_eq_some hpb
      subst hparts
      simp only [hpb]
      split
      · rfl
      · exact rebuildFen_tail _ fen h6 hne

theorem onDrop_eq_some {source target fen r : List Char}
    (h : onDrop source target fen = some r) :
    ∃ bd : Board, r = rebuildFen bd (fenFields fen) := by
  unfold onDrop at h
  split at h
  · exact absurd h (by simp)
  · rcases hpb : parsedBoard fen with _ | ⟨parts, board⟩
    · simp [hpb] at h
    · obtain ⟨hparts, -⟩ := parsedBoard_eq_some hpb
      subst hparts
      simp only [hpb] at h
      split at h
      · exact absurd h (by simp)
      · rcases hg : getSq board (squareRow source) (squareCol source) with _ | p
        · simp [hg] at h
        · simp only [hg] at h
          split at h
          · exact absurd h (by simp)
          · injection h with h
            exact ⟨_, h.symm⟩

/-! ## Claim C3 -/

/-- Claim C3: each of the board edits Place, Remove and Move preserves the
turn, castling, en-passant, halfmove and fullmove fields of the FEN from
before the edit.  The pre-edit FEN is assumed to have exactly six fields
with nonempty metadata fields (a FEN with six fields); the tail of the
field list after the edit equals the tail before it, whether the edit
applies or bails out.  For Move, a successful drop returns the rebuilt FEN
through some r, and a failed drop leaves the state unchanged by
construction. -/
theorem c3_edits_preserve_metadata (fen sq source target : List Char) (piece : Piece)
    (h6 : (fenFields fen).length = 6)
    (hne : ∀ x ∈ (fenFields fen).tail, x ≠ []) :
    (fenFields (handleSquareRightClick sq fen)).tail = (fenFields fen).tail ∧
    (fenFields (enhancedOnDrop piece sq fen)).tail = (fenFields fen).tail ∧
    (∀ r, onDrop source target fen = some r →
      (fenFields r).tail = (fenFields fen).tail) := by
  refine ⟨handleSquareRightClick_tail sq fen h6 hne,
    enhancedOnDrop_tail piece sq fen h6 hne, ?_⟩
  intro r hr
  obtain ⟨bd, rfl⟩ := onDrop_eq_some hr
  exact rebuildFen_tail bd fen h6 hne

/-- Claim C3 witness: removing the piece on a8, placing a white knight on
d4 and moving a8 to b7 in a two-king position all keep the five metadata
fields b, KQ, e3, 4, 21. -/
theorem c3_edits_preserve_metadata_witness :
    ((fenFields (str "k7/8/8/8/8/8/8/7K b KQ e3 4 21")).length = 6 ∧
      (∀ x ∈ (fenFields (str "k7/8/8/8/8/8/8/7K b KQ e3 4 21")).tail, x ≠ [])) ∧
    ((fenFields (handleSquareRightClick (str "a8") (str "k7/8/8/8/8/8/8/7K b KQ e3 4 21"))).tail =
        (fenFields (str "k7/8/8/8/8/8/8/7K b KQ e3 4 21")).tail ∧
      (fenFields (enhancedOnDrop ⟨PieceKind.knight, PieceColor.w⟩ (str "d4")
          (str "k7/8/8/8/8/8/8/7K b KQ e3 4 21"))).tail =
        (fenFields (str "k7/8/8/8/8/8/8/7K b KQ e3 4 21")).tail ∧
      (∀ r, onDrop (str "a8") (str "b7") (str "k7/8/8/8/8/8/8/7K b KQ e3 4 21") = some r →
        (fenFields r).tail = (fenFields (str "k7/8/8/8/8/8/8/7K b KQ e3 4 21")).tail)) :=
  ⟨⟨by decide, by decide⟩,
    c3_edits_preserve_metadata (str "k7/8/8/8/8/8/8/7K b KQ e3 4 21")
      (str "a8") (str "a8") (str "b7") ⟨PieceKind.knight, PieceColor.w⟩
      (by decide) (by decide)⟩

/-! ## Per-operation turn lemmas -/

theorem rebuildFen_turn (b : Board) (fen : List Char)
    (ht : (fenFields fen).getD 1 [] ≠ []) :
    (fenFields (rebuildFen b (fenFields fen))).length = 6 ∧
    (fenFields (rebuildFen b (fenFields fen))).getD 1 [] = (fenFields fen).getD 1 [] := by
  rw [fenFields_rebuildFen]
  refine ⟨rfl, ?_⟩
  simp only [List.getD_cons_succ, List.getD_cons_zero]
  exact jsOr_eq_self _ ht

theorem rotateFEN180_fields_or (fen : List Char) :
    rotateFEN180 fen = fen ∨
    ∃ B : List Char,
      fenFields (rotateFEN180 fen) =
        [B, jsOr ((fenFields fen).getD 1 []) (str "w"),
         swapCastlingLetters (jsOr ((fenFields fen).getD 2 []) (str "-")),
         rotateEnPassant (jsOr ((fenFields fen).getD 3 []) (str "-")),
         jsOr ((fenFields fen).getD 4 []) (str "0"),
         jsOr ((fenFields fen).getD 5 []) (str "1")] := by
  simp only [rotateFEN180]
  split
  · exact Or.inl rfl
  · split
    · exact Or.inl rfl
    · refine Or.inr
        ⟨joinWith '/' (((splitOnChar '/' ((fenFields fen).getD 0 [])).reverse).map List.reverse), ?_⟩
      apply fenFields_joinSix
      · intro hmem
        rcases mem_joinWith hmem with h | ⟨p, hp, hxp⟩
        · exact absurd h (by decide)
        · rcases List.mem_map.mp hp with ⟨r0, hr0, rfl⟩
          have hx : ' ' ∈ r0 := List.mem_reverse.mp hxp
          have hr0' : r0 ∈ splitOnChar '/' ((fenFields fen).getD 0 []) :=
            List.mem_reverse.mp hr0
          exact getD_fenFields_space_free fen 0 (mem_of_mem_splitOnChar hr0' hx)
      · exact jsOr_space_free (getD_fenFields_space_free fen 1) (by decide)
      · exact swapCastlingLetters_space_free _
      · exact rotateEnPassant_space_free _
      · exact jsOr_space_free (getD_fenFields_space_free fen 4) (by decide)
      · exact jsOr_space_free (getD_fenFields_space_free fen 5) (by decide)

theorem handleSwapColors_fields (fen : List Char) :
    fenFields (handleSwapColors fen) =
      [(fenFields (swapPieceColors fen)).getD 0 (str "undefined"),
       jsOr ((fenFields fen).getD 1 []) (str "w"),
       (fenFields (swapPieceColors fen)).getD 2 (str "undefined"),
       (fenFields (swapPieceColors fen)).getD 3 (str "undefined"),
       (fenFields (swapPieceColors fen)).getD 4 (str "undefined"),
       (fenFields (swapPieceColors fen)).getD 5 (str "undefined")] := by
  unfold handleSwapColors
  exact fenFields_joinSix
    (getD_space_free_default _ 0 (by decide))
    (jsOr_space_free (getD_fenFields_space_free fen 1) (by decide))
    (getD_space_free_default _ 2 (by decide))
    (getD_space_free_default _ 3 (by decide))
    (getD_space_free_default _ 4 (by decide))
    (getD_space_free_default _ 5 (by decide))

theorem applyEdit_turn (op : EditOp) (fen : List Char)
    (h6 : (fenFields fen).length = 6)
    (ht : (fenFields fen).getD 1 [] ≠ []) :
    (fenFields (applyEdit op fen)).length = 6 ∧
    (fenFields (applyEdit op fen)).getD 1 [] = (fenFields fen).getD 1 [] := by
  cases op with
  | place p sq =>
    simp only [applyEdit]
    unfold enhancedOnDrop
    split
    · exact ⟨h6, by trivial⟩
    · rcases hpb : parsedBoard fen with _ | ⟨parts, board⟩ <;> simp only [hpb]
      · exact ⟨h6, by trivial⟩
      · obtain ⟨hparts, -⟩ := parsedBoard_eq_some hpb
        subst hparts
        split
        · exact ⟨h6, by trivial⟩
        · exact rebuildFen_turn _ fen ht
  | remove sq =>
    simp only [applyEdit]
    unfold handleSquareRightClick
    split
    · exact ⟨h6, by trivial⟩
    · rcases hpb : parsedBoard fen with _ | ⟨parts, board⟩ <;> simp only [hpb]
      · exact ⟨h6, by trivial⟩
      · obtain ⟨hparts, -⟩ := parsedBoard_eq_some hpb
        subst hparts
        split
        · exact ⟨h6, by trivial⟩
        · rcases hg : getSq board (squareRow sq) (squareCol sq) with _ | p <;> simp only [hg]
          · exact ⟨h6, by trivial⟩
          · exact rebuildFen_turn _ fen ht
  | move s t =>
    simp only [applyEdit]
    rcases hd : onDrop s t fen with _ | r
    · exact ⟨h6, by trivial⟩
    · obtain ⟨bd, rfl⟩ := onDrop_eq_some hd
      simpa using rebuildFen_turn bd fen ht
  | rotate180 =>
    simp only [applyEdit]
    simp only [handleFlipBoard]
    split
    · rcases rotateFEN180_fields_or fen with h | ⟨B, h⟩
      · rw [h]; exact ⟨h6, by trivial⟩
      · rw [h]
        refine ⟨rfl, ?_⟩
        simp only [List.getD_cons_succ, List.getD_cons_zero]
        exact jsOr_eq_self _ ht
    · exact ⟨h6, by trivial⟩
  | swapColors =>
    simp only [applyEdit]
    rw [handleSwapColors_fields]
    refine ⟨rfl, ?_⟩
    simp only [List.getD_cons_succ, List.getD_cons_zero]
    exact jsOr_eq_self _ ht

/-! ## Claim C4 -/

/-- Claim C4: for any sequence of Place, Remove, Move, Rotate180 and
SwapColors operations applied to a FEN with six fields and a nonempty turn
field, the turn field of the resulting FEN equals the initial turn field.
Only the explicit turn control (handleTurnChange) writes that field; none
of these five operations does. -/
theorem c4_turn_invariant (ops : List EditOp) (fen : List Char)
    (h6 : (fenFields fen).length = 6)
    (ht : (fenFields fen).getD 1 [] ≠ []) :
    (fenFields (applyEdits ops fen)).getD 1 [] = (fenFields fen).getD 1 [] := by
  induction ops generalizing fen with
  | nil => rfl
  | cons op rest ih =>
    have hstep := applyEdit_turn op fen h6 ht
    have hrec := ih (applyEdit op fen) hstep.1 (hstep.2 ▸ ht)
    show (fenFields (applyEdits rest (applyEdit op fen))).getD 1 [] = _
    rw [hrec, hstep.2]

/-- Claim C4 witness: removing e2, flipping, swapping colors, moving g1 to
f3 and placing a black queen on d4, starting from the initial position,
leaves the turn field w. -/
theorem c4_turn_invariant_witness :
    ((fenFields handleReset).length = 6 ∧ (fenFields handleReset).getD 1 [] ≠ []) ∧
    (fenFields (applyEdits
        [EditOp.remove (str "e2"), EditOp.rotate180, EditOp.swapColors,
         EditOp.move (str "g1") (str "f3"),
         EditOp.place ⟨PieceKind.queen, PieceColor.b⟩ (str "d4")] handleReset)).getD 1 [] =
      (fenFields handleReset).getD 1 [] :=
  ⟨⟨by decide, by decide⟩,
    c4_turn_invariant
      [EditOp.remove (str "e2"), EditOp.rotate180, EditOp.swapColors,
       EditOp.move (str "g1") (str "f3"),
       EditOp.place ⟨PieceKind.queen, PieceColor.b⟩ (str "d4")]
      handleReset (by decide) (by decide)⟩

/-! ## Claim C6 -/

theorem jsValidSquare_bounds {sq : List Char} (h : jsValidSquare sq = true) :
    squareRow sq ≤ 7 ∧ squareCol sq ≤ 7 := by
  rcases sq with _ | ⟨f, _ | ⟨r, _ | ⟨x, rest⟩⟩⟩
  · exact absurd h (by simp [jsValidSquare])
  · exact absurd h (by simp [jsValidSquare])
  · simp only [jsValidSquare, decide_eq_true_eq] at h
    unfold squareRow squareCol
    simp only [List.getD_cons_succ, List.getD_cons_zero]
    omega
  · exact absurd h (by simp [jsValidSquare])

/-- Claim C6: on a parseable FEN with valid source and target squares,
Move with an empty source square returns false and changes nothing (onDrop
yields none, and the handler only calls setFen on the true path, so board,
FEN text and metadata stay as they were); with an occupied source square
it rebuilds the FEN from the board in which the source square was cleared
first and the piece was then written to the target square, overwriting any
piece there. -/
theorem c6_move_spec (source target fen : List Char)
    (parts : List (List Char)) (board : Board)
    (hpb : parsedBoard fen = some (parts, board))
    (hs : jsValidSquare source = true) (ht : jsValidSquare target = true) :
    (getSq board (squareRow source) (squareCol source) = none →
      onDrop source target fen = none) ∧
    (∀ p : Piece, getSq board (squareRow source) (squareCol source) = some p →
      onDrop source target fen =
        some (rebuildFen
          (setSq (setSq board (squareRow source) (squareCol source) none)
            (squareRow target) (squareCol target) (some p)) parts)) := by
  obtain ⟨hsr, hsc⟩ := jsValidSquare_bounds hs
  obtain ⟨htr, htc⟩ := jsValidSquare_bounds ht
  have hcond : ¬ ¬ (jsValidSquare source && jsValidSquare target) = true := by
    simp [hs, ht]
  constructor
  · intro hg
    unfold onDrop
    rw [if_neg hcond]
    simp only [hpb]
    rw [if_neg (by omega : ¬ (7 < squareRow source ∨ 7 < squareCol source))]
    rw [hg]
  · intro p hg
    unfold onDrop
    rw [if_neg hcond]
    simp only [hpb]
    rw [if_neg (by omega : ¬ (7 < squareRow source ∨ 7 < squareCol source))]
    simp only [hg]
    rw [if_neg (by omega : ¬ (7 < squareRow target ∨ 7 < squareCol target))]

/-- Claim C6 witness: in a two-king position, dropping from the occupied
a8 square onto b7 clears a8 and writes the king to b7; the empty-source
clause is available at the same squares. -/
theorem c6_move_spec_witness :
    (parsedBoard twoKingsFen = some (twoKingsParts, twoKingsBoard) ∧
      jsValidSquare (str "a8") = true ∧ jsValidSquare (str "b7") = true) ∧
    ((getSq twoKingsBoard (squareRow (str "a8")) (squareCol (str "a8")) = none →
        onDrop (str "a8") (str "b7") twoKingsFen = none) ∧
      (∀ p : Piece,
        getSq twoKingsBoard (squareRow (str "a8")) (squareCol (str "a8")) = some p →
        onDrop (str "a8") (str "b7") twoKingsFen =
          some (rebuildFen
            (setSq (setSq twoKingsBoard (squareRow (str "a8")) (squareCol (str "a8")) none)
              (squareRow (str "b7")) (squareCol (str "b7")) (some p))
            twoKingsParts))) :=
  ⟨⟨by decide, by decide, by decide⟩,
    c6_move_spec (str "a8") (str "b7") twoKingsFen twoKingsParts twoKingsBoard
      (by decide) (by decide) (by decide)⟩

/-! ## Claim C7 -/

theorem firstMaxDet_decomp (d : ChessPieceDetection) (rest : List ChessPieceDetection) :
    ∃ pre post, d :: rest = pre ++ firstMaxDet d rest :: post ∧
      (∀ e ∈ pre, e.confidence < (firstMaxDet d rest).confidence) ∧
      (∀ e ∈ d :: rest, e.confidence ≤ (firstMaxDet d rest).confidence) := by
  induction rest generalizing d with
  | nil =>
    refine ⟨[], [], by simp [firstMaxDet], by simp, ?_⟩
    intro e he
    simp only [List.mem_singleton] at he
    subst he
    simp [firstMaxDet]
  | cons e rs ih =>
    by_cases hlt : d.confidence < e.confidence
    · obtain ⟨pre, post, hsplit, hpre, hmax⟩ := ih e
      have hfm : firstMaxDet d (e :: rs) = firstMaxDet e rs := by
        simp [firstMaxDet, hlt]
      rw [hfm]
      refine ⟨d :: pre, post, by rw [List.cons_append, ← hsplit], ?_, ?_⟩
      · intro x hx
        rcases List.mem_cons.mp hx with hx | hx
        · subst hx
          exact lt_of_lt_of_le hlt (hmax e (List.mem_cons_self e rs))
        · exact hpre x hx
      · intro x hx
        rcases List.mem_cons.mp hx with hx | hx
        · subst hx
          exact le_of_lt (lt_of_lt_of_le hlt (hmax e (List.mem_cons_self e rs)))
        · exact hmax x hx
    · obtain ⟨pre, post, hsplit, hpre, hmax⟩ := ih d
      have hfm : firstMaxDet d (e :: rs) = firstMaxDet d rs := by
        simp [firstMaxDet, hlt]
      rw [hfm]
      have hle : e.confidence ≤ d.confidence := le_of_not_lt hlt
      cases pre with
      | nil =>
        simp only [List.nil_append] at hsplit
        have hd : firstMaxDet d rs = d := (List.cons.injEq _ _ _ _ ▸ hsplit).1.symm
        refine ⟨[], e :: rs, by simp [hd], by simp, ?_⟩
        intro x hx
        rcases List.mem_cons.mp hx with hx | hx
        · subst hx
          exact hmax x (List.mem_cons_self x rs)
        · rcases List.mem_cons.mp hx with hx | hx
          · subst hx
            exact le_trans hle (hmax d (List.mem_cons_self d rs))
          · exact hmax x (List.mem_cons_of_mem d hx)
      | cons q pre2 =>
        simp only [List.cons_append, List.cons.injEq] at hsplit
        obtain ⟨hq, hrs⟩ := hsplit
        subst hq
        have hdw : d.confidence < (firstMaxDet d rs).confidence :=
          hpre d (List.mem_cons_self d pre2)
        refine ⟨d :: e :: pre2, post, ?_, ?_, ?_⟩
        · rw [List.cons_append, List.cons_append, ← hrs]
        · intro x hx
          rcases List.mem_cons.mp hx with hx | hx
          · subst hx; exact hdw
          · rcases List.mem_cons.mp hx with hx | hx
            · subst hx; exact lt_of_le_of_lt hle hdw
            · exact hpre x (List.mem_cons_of_mem d hx)
        · intro x hx
          rcases List.mem_cons.mp hx with hx | hx
          · subst hx
            exact hmax x (List.mem_cons_self x rs)
          · rcases List.mem_cons.mp hx with hx | hx
            · subst hx
              exact le_trans hle (hmax d (List.mem_cons_self d rs))
            · exact hmax x (List.mem_cons_of_mem d hx)

theorem applyDet_at (minX minY sw sh : ℚ) (g : Nat → Nat → GridSquare)
    (e : ChessPieceDetection) (r c : Nat)
    (hc : clamp07 ⌊(e.x - minX) / sw⌋ = c) (hr : clamp07 ⌊(e.y - minY) / sh⌋ = r)
    {pe : Char} (hpe : pieceClassToFEN (jsToLowerStr e.cls) = some pe) :
    applyDet minX minY sw sh g e =
      if (g r c).piece = none ∨ (g r c).confidence < e.confidence then
        (fun r2 c2 => if r2 = r ∧ c2 = c then ⟨r, c, some pe, e.confidence⟩ else g r2 c2)
      else g := by
  simp only [applyDet, hpe, hc, hr]

theorem foldl_applyDet_cell (minX minY sw sh : ℚ) (r c : Nat)
    (rest : List ChessPieceDetection) (cur : ChessPieceDetection)
    (g : Nat → Nat → GridSquare)
    (hall : ∀ e ∈ rest,
      clamp07 ⌊(e.x - minX) / sw⌋ = c ∧ clamp07 ⌊(e.y - minY) / sh⌋ = r)
    (hrec : ∀ e ∈ rest, (pieceClassToFEN (jsToLowerStr e.cls)).isSome = true)
    (hcurrec : (pieceClassToFEN (jsToLowerStr cur.cls)).isSome = true)
    (hcur : g r c = ⟨r, c, pieceClassToFEN (jsToLowerStr cur.cls), cur.confidence⟩) :
    (rest.foldl (applyDet minX minY sw sh) g) r c =
      ⟨r, c, pieceClassToFEN (jsToLowerStr (firstMaxDet cur rest).cls),
        (firstMaxDet cur rest).confidence⟩ := by
  induction rest generalizing cur g with
  | nil => simpa [firstMaxDet] using hcur
  | cons e rs ih =>
    obtain ⟨pe, hpe⟩ := Option.isSome_iff_exists.mp (hrec e (List.mem_cons_self e rs))
    obtain ⟨pc, hpc⟩ := Option.isSome_iff_exists.mp hcurrec
    rw [List.foldl_cons,
      applyDet_at minX minY sw sh g e r c (hall e (List.mem_cons_self e rs)).1
        (hall e (List.mem_cons_self e rs)).2 hpe]
    by_cases hlt : cur.confidence < e.confidence
    · rw [if_pos (Or.inr (by rw [hcur]; exact hlt))]
      have hfm : firstMaxDet cur (e :: rs) = firstMaxDet e rs := by
        simp [firstMaxDet, hlt]
      rw [hfm]
      refine ih e _ (fun x hx => hall x (List.mem_cons_of_mem e hx))
        (fun x hx => hrec x (List.mem_cons_of_mem e hx))
        (hrec e (List.mem_cons_self e rs)) ?_
      simp [hpe]
    · rw [if_neg ?_]
      · have hfm : firstMaxDet cur (e :: rs) = firstMaxDet cur rs := by
          simp [firstMaxDet, hlt]
        rw [hfm]
        exact ih cur g (fun x hx => hall x (List.mem_cons_of_mem e hx))
          (fun x hx => hrec x (List.mem_cons_of_mem e hx)) hcurrec hcur
      · rw [hcur]
        push_neg
        exact ⟨by simp [hpc], le_of_not_lt hlt⟩

/-- Claim C7: when all detections of a scan land in the same grid cell and
carry recognized class labels, the cell ends up holding exactly the first
detection of maximal confidence: a strictly higher confidence displaces
the occupant, an equal confidence does not (first write wins), in
whatever order the detections arrive.  The fold below is the
detections.forEach loop of detectionsToFEN. -/
theorem c7_collision_policy (minX minY sw sh : ℚ) (r c : Nat)
    (d : ChessPieceDetection) (rest : List ChessPieceDetection)
    (hall : ∀ e ∈ d :: rest,
      clamp07 ⌊(e.x - minX) / sw⌋ = c ∧ clamp07 ⌊(e.y - minY) / sh⌋ = r)
    (hrec : ∀ e ∈ d :: rest, (pieceClassToFEN (jsToLowerStr e.cls)).isSome = true) :
    ∃ pre w post, d :: rest = pre ++ w :: post ∧
      (∀ e ∈ pre, e.confidence < w.confidence) ∧
      (∀ e ∈ d :: rest, e.confidence ≤ w.confidence) ∧
      ((d :: rest).foldl (applyDet minX minY sw sh) emptyGrid) r c =
        ⟨r, c, pieceClassToFEN (jsToLowerStr w.cls), w.confidence⟩ := by
  obtain ⟨pre, post, hsplit, hpre, hmax⟩ := firstMaxDet_decomp d rest
  refine ⟨pre, firstMaxDet d rest, post, hsplit, hpre, hmax, ?_⟩
  obtain ⟨pd, hpd⟩ :=
    Option.isSome_iff_exists.mp (hrec d (List.mem_cons_self d rest))
  rw [List.foldl_cons,
    applyDet_at minX minY sw sh emptyGrid d r c (hall d (List.mem_cons_self d rest)).1
      (hall d (List.mem_cons_self d rest)).2 hpd]
  rw [if_pos (show (emptyGrid r c).piece = none ∨
    (emptyGrid r c).confidence < d.confidence from Or.inl rfl)]
  refine foldl_applyDet_cell minX minY sw sh r c rest d _
    (fun x hx => hall x (List.mem_cons_of_mem d hx))
    (fun x hx => hrec x (List.mem_cons_of_mem d hx))
    (hrec d (List.mem_cons_self d rest)) ?_
  simp [hpd]

/-- Claim C7 witness: a white-pawn detection of confidence 1 followed by a
black-queen detection of confidence 0 in the same cell leaves the
white-pawn detection in the cell, it being the first of maximal
confidence. -/
theorem c7_collision_policy_witness :
    (∀ e ∈ detWPawn :: [detBQueen],
      clamp07 ⌊(e.x - 0) / 1⌋ = 0 ∧ clamp07 ⌊(e.y - 0) / 1⌋ = 0) ∧
    (∀ e ∈ detWPawn :: [detBQueen],
      (pieceClassToFEN (jsToLowerStr e.cls)).isSome = true) ∧
    (∃ pre w post, detWPawn :: [detBQueen] = pre ++ w :: post ∧
      (∀ e ∈ pre, e.confidence < w.confidence) ∧
      (∀ e ∈ detWPawn :: [detBQueen], e.confidence ≤ w.confidence) ∧
      ((detWPawn :: [detBQueen]).foldl (applyDet 0 0 1 1) emptyGrid) 0 0 =
        ⟨0, 0, pieceClassToFEN (jsToLowerStr w.cls), w.confidence⟩) := by
  have hall : ∀ e ∈ detWPawn :: [detBQueen],
      clamp07 ⌊(e.x - 0) / 1⌋ = 0 ∧ clamp07 ⌊(e.y - 0) / 1⌋ = 0 := by
    intro e he
    fin_cases he <;> constructor <;> norm_num [detWPawn, detBQueen, clamp07]
  have hrec : ∀ e ∈ detWPawn :: [detBQueen],
      (pieceClassToFEN (jsToLowerStr e.cls)).isSome = true := by
    intro e he
    fin_cases he <;> decide
  exact ⟨hall, hrec, c7_collision_policy 0 0 1 1 0 0 detWPawn [detBQueen] hall hrec⟩

/-! ## Claim C2 -/

theorem swapRankChar_alpha {ch : Char} (h : ch ∈ fenBoardAlpha) :
    swapRankChar ch = some (swapLetter ch) ∧ swapLetter ch ∈ fenBoardAlpha ∧
    swapLetter (swapLetter ch) = ch ∧ swapLetter ch ≠ ' ' ∧ swapLetter ch ≠ '/' := by
  simp only [fenBoardAlpha] at h
  fin_cases h <;>
    exact ⟨by decide, by decide, by decide, by decide, by decide⟩

theorem swapRankChars_alpha {r : List Char} (h : ∀ ch ∈ r, ch ∈ fenBoardAlpha) :
    swapRankChars r = r.map swapLetter := by
  induction r with
  | nil => rfl
  | cons x xs ih =>
    have hx := (swapRankChar_alpha (h x (List.mem_cons_self x xs))).1
    simp only [swapRankChars, List.filterMap_cons, hx, List.map_cons]
    exact congrArg _ (ih (fun ch hch => h ch (List.mem_cons_of_mem x hch)))

theorem swapRankChars_alpha_mem {r : List Char} (h : ∀ ch ∈ r, ch ∈ fenBoardAlpha) :
    ∀ x ∈ swapRankChars r, x ∈ fenBoardAlpha := by
  intro x hx
  rw [swapRankChars_alpha h] at hx
  rcases List.mem_map.mp hx with ⟨ch, hch, rfl⟩
  exact (swapRankChar_alpha (h ch hch)).2.1

theorem swapRankChars_invol {r : List Char} (h : ∀ ch ∈ r, ch ∈ fenBoardAlpha) :
    swapRankChars (swapRankChars r) = r := by
  rw [swapRankChars_alpha h, swapRankChars_alpha]
  · rw [List.map_map]
    have : ∀ ch ∈ r, (swapLetter ∘ swapLetter) ch = id ch := by
      intro ch hch
      exact (swapRankChar_alpha (h ch hch)).2.2.1
    rw [List.map_congr_left this, List.map_id]
  · intro ch hch
    rcases List.mem_map.mp hch with ⟨x, hx, rfl⟩
    exact (swapRankChar_alpha (h x hx)).2.1

theorem alpha_ne_sep {ch : Char} (h : ch ∈ fenBoardAlpha) : ch ≠ ' ' ∧ ch ≠ '/' := by
  simp only [fenBoardAlpha] at h
  fin_cases h <;> exact ⟨by decide, by decide⟩

theorem castlingConcat_eq_nil {c : List Char} (h : castlingConcat c = []) :
    'K' ∉ c ∧ 'Q' ∉ c ∧ 'k' ∉ c ∧ 'q' ∉ c := by
  unfold castlingConcat at h
  by_cases hK : 'K' ∈ c <;> by_cases hQ : 'Q' ∈ c <;>
    by_cases hk : 'k' ∈ c <;> by_cases hq : 'q' ∈ c <;>
    simp [hK, hQ, hk, hq] at h ⊢

theorem swapCastlingLetters_ne_nil (c : List Char) : swapCastlingLetters c ≠ [] := by
  unfold swapCastlingLetters
  split
  · decide
  · split
    · decide
    · assumption

theorem mem_swapCastlingLetters_iff {x : Char} (hx : x ∈ ['K', 'Q', 'k', 'q'])
    (c : List Char) : x ∈ swapCastlingLetters c ↔ swapLetter x ∈ c := by
  unfold swapCastlingLetters
  split
  · rename_i hdash
    subst hdash
    fin_cases hx <;> decide
  · split
    · rename_i hnil
      obtain ⟨hK, hQ, hk, hq⟩ := castlingConcat_eq_nil hnil
      fin_cases hx
      · rw [show swapLetter 'K' = 'k' from by decide]
        exact iff_of_false (by decide) hk
      · rw [show swapLetter 'Q' = 'q' from by decide]
        exact iff_of_false (by decide) hq
      · rw [show swapLetter 'k' = 'K' from by decide]
        exact iff_of_false (by decide) hK
      · rw [show swapLetter 'q' = 'Q' from by decide]
        exact iff_of_false (by decide) hQ
    · rw [mem_castlingConcat]
      fin_cases hx <;> simp [swapLetter, jsToLower, jsToUpper]

theorem swapPieceColors_eq (fen b t c e h f : List Char)
    (hf : fenFields fen = [b, t, c, e, h, f])
    (hr : (splitOnChar '/' b).length = 8)
    (ht : t ≠ []) (hc : c ≠ []) (he : e ≠ []) (hh : h ≠ []) (hf5 : f ≠ []) :
    swapPieceColors fen =
      joinSix (joinWith '/' ((splitOnChar '/' b).map swapRankChars)) t
        (swapCastlingLetters c) e h f := by
  simp only [swapPieceColors, hf]
  rw [if_neg (by simp)]
  simp only [List.getD_cons_zero, List.getD_cons_succ]
  rw [jsOr_eq_self _ ht, jsOr_eq_self _ hc, jsOr_eq_self _ he,
    jsOr_eq_self _ hh, jsOr_eq_self _ hf5]
  rw [if_neg (by simp [hr])]

theorem swapPieceColors_fields (fen b t c e h f : List Char)
    (hf : fenFields fen = [b, t, c, e, h, f])
    (hr : (splitOnChar '/' b).length = 8)
    (halpha : ∀ r ∈ splitOnChar '/' b, ∀ ch ∈ r, ch ∈ fenBoardAlpha)
    (ht : t ≠ []) (hc : c ≠ []) (he : e ≠ []) (hh : h ≠ []) (hf5 : f ≠ []) :
    fenFields (swapPieceColors fen) =
      [joinWith '/' ((splitOnChar '/' b).map swapRankChars), t,
       swapCastlingLetters c, e, h, f] := by
  rw [swapPieceColors_eq fen b t c e h f hf hr ht hc he hh hf5]
  have hmem : ∀ x, x ∈ [b, t, c, e, h, f] → ' ' ∉ x := by
    intro x hx
    exact mem_fenFields_not_space (hf ▸ hx)
  apply fenFields_joinSix
  · intro hsp
    rcases mem_joinWith hsp with hx | ⟨p, hp, hxp⟩
    · exact absurd hx (by decide)
    · rcases List.mem_map.mp hp with ⟨r0, hr0, rfl⟩
      have := swapRankChars_alpha_mem (halpha r0 hr0) ' ' hxp
      exact (alpha_ne_sep this).1 rfl
  · exact hmem t (by simp)
  · exact swapCastlingLetters_space_free c
  · exact hmem e (by simp)
  · exact hmem h (by simp)
  · exact hmem f (by simp)

/-- Claim C2: on a FEN with six nonempty fields and eight ranks over the
FEN board alphabet, SwapColors inverts the case of every rank character in
place (rank order and file positions unchanged), leaves turn, en passant
and both move counters untouched, swaps the castling letters white to
black and black to white as a set, and applying it twice restores the
original board field exactly. -/
theorem c2_swapColors_spec (fen b t c e h f : List Char)
    (hf : fenFields fen = [b, t, c, e, h, f])
    (hr : (splitOnChar '/' b).length = 8)
    (halpha : ∀ r ∈ splitOnChar '/' b, ∀ ch ∈ r, ch ∈ fenBoardAlpha)
    (ht : t ≠ []) (hc : c ≠ []) (he : e ≠ []) (hh : h ≠ []) (hf5 : f ≠ []) :
    fenFields (swapPieceColors fen) =
      [joinWith '/' ((splitOnChar '/' b).map (List.map swapLetter)), t,
       swapCastlingLetters c, e, h, f] ∧
    (∀ x ∈ ['K', 'Q', 'k', 'q'], x ∈ swapCastlingLetters c ↔ swapLetter x ∈ c) ∧
    (fenFields (swapPieceColors (swapPieceColors fen))).getD 0 [] = b := by
  have hfields := swapPieceColors_fields fen b t c e h f hf hr halpha ht hc he hh hf5
  have hswap_ranks : (splitOnChar '/' b).map swapRankChars =
      (splitOnChar '/' b).map (List.map swapLetter) :=
    List.map_congr_left (fun r0 hr0 => swapRankChars_alpha (halpha r0 hr0))
  refine ⟨hswap_ranks ▸ hfields, fun x hx => mem_swapCastlingLetters_iff hx c, ?_⟩
  have hB : splitOnChar '/' (joinWith '/' ((splitOnChar '/' b).map swapRankChars)) =
      (splitOnChar '/' b).map swapRankChars := by
    apply splitOnChar_joinWith
    · simp [hr]
      intro habs
      rw [habs] at hr
      simp at hr
    · intro p hp
      rcases List.mem_map.mp hp with ⟨r0, hr0, rfl⟩
      intro hsl
      exact (alpha_ne_sep (swapRankChars_alpha_mem (halpha r0 hr0) _ hsl)).2 rfl
  have hfields2 := swapPieceColors_fields (swapPieceColors fen)
    (joinWith '/' ((splitOnChar '/' b).map swapRankChars)) t
    (swapCastlingLetters c) e h f hfields
    (by rw [hB]; simp [hr])
    (by
      rw [hB]
      intro r0 hr0 ch hch
      rcases List.mem_map.mp hr0 with ⟨r1, hr1, rfl⟩
      exact swapRankChars_alpha_mem (halpha r1 hr1) ch hch)
    ht (swapCastlingLetters_ne_nil c) he hh hf5
  rw [hfields2, hB]
  simp only [List.getD_cons_zero]
  have : ((splitOnChar '/' b).map swapRankChars).map swapRankChars = splitOnChar '/' b := by
    rw [List.map_map]
    have hcongr : ∀ r0 ∈ splitOnChar '/' b, (swapRankChars ∘ swapRankChars) r0 = id r0 :=
      fun r0 hr0 => swapRankChars_invol (halpha r0 hr0)
    rw [List.map_congr_left hcongr, List.map_id]
  rw [this, joinWith_splitOnChar]

/-- Claim C2 witness: the initial position satisfies the hypotheses, its
color swap inverts every rank in place with castling becoming kqKQ, and
the double swap restores the initial board field. -/
theorem c2_swapColors_spec_witness :
    (fenFields handleReset =
        [str "rnbqkbnr/pppppppp/8/8/8/8/PPPPPPPP/RNBQKBNR", str "w", str "KQkq",
         str "-", str "0", str "1"] ∧
      (splitOnChar '/' (str "rnbqkbnr/pppppppp/8/8/8/8/PPPPPPPP/RNBQKBNR")).length = 8) ∧
    (fenFields (swapPieceColors handleReset) =
        [joinWith '/' ((splitOnChar '/' (str "rnbqkbnr/pppppppp/8/8/8/8/PPPPPPPP/RNBQKBNR")).map
            (List.map swapLetter)), str "w",
         swapCastlingLetters (str "KQkq"), str "-", str "0", str "1"] ∧
      (∀ x ∈ ['K', 'Q', 'k', 'q'],
        x ∈ swapCastlingLetters (str "KQkq") ↔ swapLetter x ∈ str "KQkq") ∧
      (fenFields (swapPieceColors (swapPieceColors handleReset))).getD 0 [] =
        str "rnbqkbnr/pppppppp/8/8/8/8/PPPPPPPP/RNBQKBNR") :=
  ⟨⟨by decide, by decide⟩,
    c2_swapColors_spec handleReset
      (str "rnbqkbnr/pppppppp/8/8/8/8/PPPPPPPP/RNBQKBNR") (str "w") (str "KQkq")
      (str "-") (str "0") (str "1")
      (by decide) (by decide) (by decide)
      (by decide) (by decide) (by decide) (by decide) (by decide)⟩

/-! ## Claim C5 -/

theorem rotateEnPassant_ne_nil (ep : List Char) : rotateEnPassant ep ≠ [] := by
  unfold rotateEnPassant
  split
  · split
    · simp
    · decide
  · decide

theorem rotateEnPassant_invol {e : List Char}
    (he : e = str "-" ∨ ∃ fc rc, e = [fc, rc] ∧
      fc ∈ ['a', 'b', 'c', 'd', 'e', 'f', 'g', 'h'] ∧
      rc ∈ ['1', '2', '3', '4', '5', '6', '7', '8']) :
    rotateEnPassant (rotateEnPassant e) = e := by
  rcases he with rfl | ⟨fc, rc, rfl, hfc, hrc⟩
  · decide
  · fin_cases hfc <;> fin_cases hrc <;> decide

theorem mem_swapCastlingLetters_sub {x : Char} {c : List Char}
    (h : x ∈ swapCastlingLetters c) : x ∈ ['-', 'k', 'q', 'K', 'Q'] := by
  unfold swapCastlingLetters at h
  split at h
  · rw [show str "-" = ['-'] from rfl] at h
    rcases List.mem_singleton.mp h with rfl
    decide
  · split at h
    · rw [show str "-" = ['-'] from rfl] at h
      rcases List.mem_singleton.mp h with rfl
      decide
    · rcases mem_castlingConcat.mp h with ⟨-, rfl⟩ | ⟨-, rfl⟩ | ⟨-, rfl⟩ | ⟨-, rfl⟩ <;> decide

theorem castlingConcat_ne_nil_of {c : List Char} (hne : c ≠ [])
    (hsub : ∀ x ∈ c, x ∈ ['K', 'Q', 'k', 'q']) : castlingConcat c ≠ [] := by
  intro habs
  obtain ⟨hK, hQ, hk, hq⟩ := castlingConcat_eq_nil habs
  cases c with
  | nil => exact hne rfl
  | cons y ys =>
    have hy := hsub y (List.mem_cons_self y ys)
    fin_cases hy
    · exact hK (List.mem_cons_self _ ys)
    · exact hQ (List.mem_cons_self _ ys)
    · exact hk (List.mem_cons_self _ ys)
    · exact hq (List.mem_cons_self _ ys)

theorem swapCastlingLetters_eq_concat {c : List Char} (hne : c ≠ [])
    (hsub : ∀ x ∈ c, x ∈ ['K', 'Q', 'k', 'q']) :
    swapCastlingLetters c = castlingConcat c := by
  unfold swapCastlingLetters
  rw [if_neg, if_neg (castlingConcat_ne_nil_of hne hsub)]
  intro habs
  subst habs
  have := hsub '-' (by decide)
  exact absurd this (by decide)

theorem mem_swapCastlingLetters_kqKQ {c : List Char} (hne : c ≠ [])
    (hsub : ∀ x ∈ c, x ∈ ['K', 'Q', 'k', 'q']) :
    ∀ x ∈ swapCastlingLetters c, x ∈ ['K', 'Q', 'k', 'q'] := by
  intro x hx
  rw [swapCastlingLetters_eq_concat hne hsub] at hx
  rcases mem_castlingConcat.mp hx with ⟨-, rfl⟩ | ⟨-, rfl⟩ | ⟨-, rfl⟩ | ⟨-, rfl⟩ <;> decide

theorem swapCastlingLetters_mem_invol {c : List Char}
    (hc : c = str "-" ∨ (c ≠ [] ∧ ∀ x ∈ c, x ∈ ['K', 'Q', 'k', 'q'])) :
    ∀ x : Char, x ∈ swapCastlingLetters (swapCastlingLetters c) ↔ x ∈ c := by
  intro x
  rcases hc with rfl | ⟨hne, hsub⟩
  · rw [show swapCastlingLetters (swapCastlingLetters (str "-")) = str "-" from by decide]
  · by_cases hx : x ∈ ['K', 'Q', 'k', 'q']
    · have h1 := mem_swapCastlingLetters_iff hx (swapCastlingLetters c)
      have hx2 : swapLetter x ∈ ['K', 'Q', 'k', 'q'] := by
        fin_cases hx <;> decide
      have h2 := mem_swapCastlingLetters_iff hx2 c
      rw [h1, h2]
      have : swapLetter (swapLetter x) = x := by fin_cases hx <;> decide
      rw [this]
    · have hsw1 := castlingConcat_ne_nil_of hne hsub
      have hmem1 := mem_swapCastlingLetters_kqKQ hne hsub
      have hne1 : swapCastlingLetters c ≠ [] := swapCastlingLetters_ne_nil c
      have hmem2 := mem_swapCastlingLetters_kqKQ hne1 hmem1
      exact iff_of_false (fun habs => hx (hmem2 x habs)) (fun habs => hx (hsub x habs))

theorem rotateFEN180_eq (fen b t c e h f : List Char)
    (hf : fenFields fen = [b, t, c, e, h, f])
    (hr : (splitOnChar '/' b).length = 8)
    (ht : t ≠ []) (hc : c ≠ []) (he : e ≠ []) (hh : h ≠ []) (hf5 : f ≠ []) :
    rotateFEN180 fen =
      joinSix (joinWith '/' (((splitOnChar '/' b).reverse).map List.reverse)) t
        (swapCastlingLetters c) (rotateEnPassant e) h f := by
  simp only [rotateFEN180, hf]
  rw [if_neg (by simp)]
  simp only [List.getD_cons_zero, List.getD_cons_succ]
  rw [jsOr_eq_self _ ht, jsOr_eq_self _ hc, jsOr_eq_self _ he,
    jsOr_eq_self _ hh, jsOr_eq_self _ hf5]
  rw [if_neg (by simp [hr])]

theorem rotateFEN180_fields (fen b t c e h f : List Char)
    (hf : fenFields fen = [b, t, c, e, h, f])
    (hr : (splitOnChar '/' b).length = 8)
    (ht : t ≠ []) (hc : c ≠ []) (he : e ≠ []) (hh : h ≠ []) (hf5 : f ≠ []) :
    fenFields (rotateFEN180 fen) =
      [joinWith '/' (((splitOnChar '/' b).reverse).map List.reverse), t,
       swapCastlingLetters c, rotateEnPassant e, h, f] := by
  rw [rotateFEN180_eq fen b t c e h f hf hr ht hc he hh hf5]
  have hmem : ∀ x, x ∈ [b, t, c, e, h, f] → ' ' ∉ x := by
    intro x hx
    exact mem_fenFields_not_space (hf ▸ hx)
  apply fenFields_joinSix
  · intro hsp
    rcases mem_joinWith hsp with hx | ⟨p, hp, hxp⟩
    · exact absurd hx (by decide)
    · rcases List.mem_map.mp hp with ⟨r0, hr0, rfl⟩
      exact hmem b (by simp)
        (mem_of_mem_splitOnChar (List.mem_reverse.mp hr0) (List.mem_reverse.mp hxp))
  · exact hmem t (by simp)
  · exact swapCastlingLetters_space_free c
  · exact rotateEnPassant_space_free e
  · exact hmem h (by simp)
  · exact hmem f (by simp)

/-- Claim C5: on a FEN position with six nonempty fields, eight ranks,
castling a dash or letters among K, Q, k, q, and en passant a dash or a
board square, rotating twice restores the board field exactly (hence the
piece placement on every square), restores turn and both counters, keeps
the en-passant square, and restores the castling rights as a set of
letters (the implementation re-emits the field in its fixed k, q, K, Q
order, so the string itself round-trips exactly when it is already in
that order). -/
theorem c5_rotate180_involution (fen b t c e h f : List Char)
    (hf : fenFields fen = [b, t, c, e, h, f])
    (hr : (splitOnChar '/' b).length = 8)
    (hc2 : c = str "-" ∨ (c ≠ [] ∧ ∀ x ∈ c, x ∈ ['K', 'Q', 'k', 'q']))
    (he2 : e = str "-" ∨ ∃ fc rc, e = [fc, rc] ∧
      fc ∈ ['a', 'b', 'c', 'd', 'e', 'f', 'g', 'h'] ∧
      rc ∈ ['1', '2', '3', '4', '5', '6', '7', '8'])
    (ht : t ≠ []) (hh : h ≠ []) (hf5 : f ≠ []) :
    (fenFields (rotateFEN180 (rotateFEN180 fen))).getD 0 [] = b ∧
    (fenFields (rotateFEN180 (rotateFEN180 fen))).getD 1 [] = t ∧
    (∀ x : Char, x ∈ (fenFields (rotateFEN180 (rotateFEN180 fen))).getD 2 [] ↔ x ∈ c) ∧
    (fenFields (rotateFEN180 (rotateFEN180 fen))).getD 3 [] = e ∧
    (fenFields (rotateFEN180 (rotateFEN180 fen))).getD 4 [] = h ∧
    (fenFields (rotateFEN180 (rotateFEN180 fen))).getD 5 [] = f := by
  have hcne : c ≠ [] := by
    rcases hc2 with rfl | ⟨hne, -⟩
    · simp [str]
    · exact hne
  have hene : e ≠ [] := by
    rcases he2 with rfl | ⟨fc, rc, rfl, -, -⟩
    · simp [str]
    · simp
  have hfields1 := rotateFEN180_fields fen b t c e h f hf hr ht hcne hene hh hf5
  have hslash : ∀ p ∈ ((splitOnChar '/' b).reverse).map List.reverse, '/' ∉ p := by
    intro p hp
    rcases List.mem_map.mp hp with ⟨r0, hr0, rfl⟩
    intro hx
    exact not_mem_of_mem_splitOnChar (List.mem_reverse.mp hr0) (List.mem_reverse.mp hx)
  have hB : splitOnChar '/' (joinWith '/' (((splitOnChar '/' b).reverse).map List.reverse)) =
      ((splitOnChar '/' b).reverse).map List.reverse := by
    apply splitOnChar_joinWith _ _ _ hslash
    intro habs
    have hlen := congrArg List.length habs
    simp [hr] at hlen
  have hfields2 := rotateFEN180_fields (rotateFEN180 fen)
    (joinWith '/' (((splitOnChar '/' b).reverse).map List.reverse)) t
    (swapCastlingLetters c) (rotateEnPassant e) h f hfields1
    (by rw [hB]; simp [hr])
    ht (swapCastlingLetters_ne_nil c) (rotateEnPassant_ne_nil e) hh hf5
  rw [hfields2, hB]
  refine ⟨?_, rfl, swapCastlingLetters_mem_invol hc2, rotateEnPassant_invol he2, rfl, rfl⟩
  simp only [List.getD_cons_zero]
  rw [← List.map_reverse, List.reverse_reverse, List.map_map]
  have hcongr : ∀ r0 ∈ splitOnChar '/' b, (List.reverse ∘ List.reverse) r0 = id r0 :=
    fun r0 _ => List.reverse_reverse r0
  rw [List.map_congr_left hcongr, List.map_id, joinWith_splitOnChar]


/-- Claim C5 counterexample: on the standard initial position the castling
field of the double rotation is the re-emitted string kqKQ, not the
original KQkq, so the castling-rights field does not return to its
original string value (only the set of letters does). -/
theorem c5_rotate180_counterexample :
    (fenFields (rotateFEN180 (rotateFEN180
        (str "rnbqkbnr/pppppppp/8/8/8/8/PPPPPPPP/RNBQKBNR w KQkq - 0 1")))).getD 2 [] ≠
      str "KQkq" := by decide

/-- Claim C5 witness: the initial position with castling KQkq and an e3
en-passant square satisfies the hypotheses, and double rotation restores
board, turn, en passant, counters, and the castling letters as a set. -/
theorem c5_rotate180_involution_witness :
    (fenFields (str "rnbqkbnr/pppppppp/8/8/8/8/PPPPPPPP/RNBQKBNR w KQkq e3 0 1") =
        [str "rnbqkbnr/pppppppp/8/8/8/8/PPPPPPPP/RNBQKBNR", str "w", str "KQkq",
         str "e3", str "0", str "1"] ∧
      (splitOnChar '/' (str "rnbqkbnr/pppppppp/8/8/8/8/PPPPPPPP/RNBQKBNR")).length = 8) ∧
    ((fenFields (rotateFEN180 (rotateFEN180
          (str "rnbqkbnr/pppppppp/8/8/8/8/PPPPPPPP/RNBQKBNR w KQkq e3 0 1")))).getD 0 [] =
        str "rnbqkbnr/pppppppp/8/8/8/8/PPPPPPPP/RNBQKBNR" ∧
      (fenFields (rotateFEN180 (rotateFEN180
          (str "rnbqkbnr/pppppppp/8/8/8/8/PPPPPPPP/RNBQKBNR w KQkq e3 0 1")))).getD 1 [] =
        str "w" ∧
      (∀ x : Char, x ∈ (fenFields (rotateFEN180 (rotateFEN180
          (str "rnbqkbnr/pppppppp/8/8/8/8/PPPPPPPP/RNBQKBNR w KQkq e3 0 1")))).getD 2 [] ↔
        x ∈ str "KQkq") ∧
      (fenFields (rotateFEN180 (rotateFEN180
          (str "rnbqkbnr/pppppppp/8/8/8/8/PPPPPPPP/RNBQKBNR w KQkq e3 0 1")))).getD 3 [] =
        str "e3" ∧
      (fenFields (rotateFEN180 (rotateFEN180
          (str "rnbqkbnr/pppppppp/8/8/8/8/PPPPPPPP/RNBQKBNR w KQkq e3 0 1")))).getD 4 [] =
        str "0" ∧
      (fenFields (rotateFEN180 (rotateFEN180
          (str "rnbqkbnr/pppppppp/8/8/8/8/PPPPPPPP/RNBQKBNR w KQkq e3 0 1")))).getD 5 [] =
        str "1") :=
  ⟨⟨by decide, by decide⟩,
    c5_rotate180_involution
      (str "rnbqkbnr/pppppppp/8/8/8/8/PPPPPPPP/RNBQKBNR w KQkq e3 0 1")
      (str "rnbqkbnr/pppppppp/8/8/8/8/PPPPPPPP/RNBQKBNR") (str "w") (str "KQkq")
      (str "e3") (str "0") (str "1")
      (by decide) (by decide)
      (Or.inr ⟨by decide, by decide⟩)
      (Or.inr ⟨'e', '3', by decide, by decide, by decide⟩)
      (by decide) (by decide) (by decide)⟩

/-! ## Claim C9 -/

theorem foldl_add_charColumns : ∀ (r : List Char) (a : Nat),
    r.foldl (fun acc ch => acc + charColumns ch) a = a + (r.map charColumns).sum
  | [], a => by simp
  | x :: xs, a => by
    rw [List.foldl_cons, foldl_add_charColumns xs (a + charColumns x)]
    simp [List.sum_cons]
    omega

theorem rankSquareCount_eq (r : List Char) :
    rankSquareCount r = (r.map charColumns).sum := by
  have h : rankSquareCount r = r.foldl (fun acc ch => acc + charColumns ch) 0 := rfl
  rw [h, foldl_add_charColumns r 0, Nat.zero_add]

theorem isEpSquare_iff (l : List Char) :
    isEpSquare l = true ↔
      ∃ fc rc, l = [fc, rc] ∧ 97 ≤ fc.toNat ∧ fc.toNat ≤ 104 ∧ (rc = '3' ∨ rc = '6') := by
  rcases l with _ | ⟨f, _ | ⟨r, _ | ⟨x, xs⟩⟩⟩
  · simp [isEpSquare]
  · simp [isEpSquare]
  · simp only [isEpSquare, Bool.and_eq_true, decide_eq_true_eq, Bool.or_eq_true, beq_iff_eq]
    constructor
    · rintro ⟨⟨h1, h2⟩, h3⟩
      exact ⟨f, r, rfl, h1, h2, h3⟩
    · rintro ⟨fc, rc, heq, h1, h2, h3⟩
      obtain ⟨rfl, rfl⟩ : f = fc ∧ r = rc := by simpa using heq
      exact ⟨⟨h1, h2⟩, h3⟩
  · constructor
    · intro h
      exact absurd h (by simp [isEpSquare])
    · rintro ⟨fc, rc, heq, -⟩
      simp at heq

theorem rankCheck_iff (r : List Char) :
    ((¬ r.isEmpty && r.all isFenBoardChar) && rankSquareCount r = 8) = true ↔
      (r ≠ [] ∧ (∀ ch ∈ r, isFenBoardChar ch = true) ∧ (r.map charColumns).sum = 8) := by
  simp [Bool.and_eq_true, List.all_eq_true, rankSquareCount_eq, List.isEmpty_iff,
    and_assoc]

theorem digitsCheck_iff (p : List Char) :
    ((¬ p.isEmpty && p.all Char.isDigit) = true) ↔
      (p ≠ [] ∧ ∀ ch ∈ p, ch.isDigit = true) := by
  simp [Bool.and_eq_true, List.all_eq_true, List.isEmpty_iff]

theorem castlingCheck_iff (p : List Char) :
    (p = str "-" ∨ (p.all (fun c => c ∈ ['K', 'Q', 'k', 'q'])) = true) ↔
      (p = str "-" ∨ ∀ ch ∈ p, ch ∈ ['K', 'Q', 'k', 'q']) := by
  simp [List.all_eq_true]

/-- Claim C9: the structural validator rejects the seven-rank FEN, the
bad-turn-character FEN and a FEN whose first rank sums to nine columns;
and it accepts exactly the strings with six whitespace-separated fields,
eight ranks over the FEN board alphabet each summing to eight columns,
turn w or b, castling a dash or K/Q/k/q letters, en passant a dash or a
file with rank 3 or 6, and digit-only halfmove and fullmove fields. -/
theorem c9_validator_spec :
    validateFENFormat (str "8/8/8/8/8/8/8 w - - 0 1") = false ∧
    validateFENFormat (str "rnbqkbnr/pppppppp/8/8/8/8/PPPPPPPP/RNBQKBNR x - - 0 1") = false ∧
    validateFENFormat (str "p8/8/8/8/8/8/8/8 w - - 0 1") = false ∧
    (∀ fen : List Char, validateFENFormat fen = true ↔ specStructurallyValid fen) := by
  refine ⟨by decide, by decide, by decide, ?_⟩
  intro fen
  by_cases hnil : fen = []
  · subst hnil
    constructor
    · intro h
      exact absurd h (by decide)
    · rintro ⟨h1, -⟩
      rw [show splitWs (jsTrim []) = [[]] from rfl] at h1
      simp at h1
  · unfold validateFENFormat specStructurallyValid
    rw [if_neg hnil]
    constructor
    · intro hv
      split_ifs at hv with h2 h3 h4 h5 h6 h7 h8 h9 <;>
        try simp at hv
      refine ⟨not_ne_iff.mp h2, not_ne_iff.mp h3, ?_, h5, ?_, ?_, ?_, ?_⟩
      · intro r hr
        exact (rankCheck_iff r).mp (List.all_eq_true.mp h4 r hr)
      · exact (castlingCheck_iff _).mp h6
      · rcases h7 with hd | hep
        · exact Or.inl hd
        · exact Or.inr ((isEpSquare_iff _).mp hep)
      · exact (digitsCheck_iff _).mp h8
      · exact (digitsCheck_iff _).mp h9
    · rintro ⟨h1, h2, h3, h4, h5, h6, h7, h8⟩
      rw [if_neg (not_ne_iff.mpr h1), if_neg (not_ne_iff.mpr h2)]
      rw [if_neg (not_not.mpr (List.all_eq_true.mpr
        (fun r hr => (rankCheck_iff r).mpr (h3 r hr))))]
      rw [if_neg (not_not.mpr h4)]
      rw [if_neg (not_not.mpr ((castlingCheck_iff _).mpr h5))]
      rw [if_neg (not_not.mpr ?_)]
      · rw [if_neg (not_not.mpr ((digitsCheck_iff _).mpr h7))]
        rw [if_neg (not_not.mpr ((digitsCheck_iff _).mpr h8))]
      · rcases h6 with hd | hep
        · exact Or.inl hd
        · exact Or.inr ((isEpSquare_iff _).mpr hep)

end ChessScan
